import Mathlib

/-!
Verification of the unpkg-fs virtual filesystem, dependency installer and
module resolver (sources: WebFS.ts, VirtualNode.ts, VirtualNPM.ts).

The development shallowly embeds the TypeScript sources:
- the node/path data model of WebFS.ts (VNode, VPath),
- specifier decoding (decode), traversal (lfind) and symlink resolution
  (realnode) of WebFS.ts, with an explicit fuel argument making the
  mutually recursive JS functions total (fuel is consumed only on symlink
  resolution steps, the sole source of unbounded recursion in the source),
- the module resolver of VirtualNode.ts (mapBrowser, createReader,
  loadAsFile, loadAsIndex, loadAsDirectoryPackage, loadAsDirectory,
  loadAsPackage, resolve),
- the dependency installer of VirtualNPM.ts (install), with in-place
  mutation of the shared tree modelled by functional update at the access
  path of the mutated directory,
- the require cache of VirtualNode.ts (createRequireFromPath), with the
  opaque evaluator modelled as the sequence of nested require calls a
  file performs.

JavaScript exceptions are modelled with Except; JSON.parse is an external
JS primitive and is passed as an explicit parse function parameter.
-/

namespace Unpkg

/-- Node model of WebFS.ts: VFSDirectory / VFSFile / VFSSymlink.
A directory content is the insertion-ordered key/value list of the JS
object; keys are unique in any object built by the source. -/
inductive VNode where
  | dir (content : List (String × VNode))
  | file (size : Nat) (content : String)
  | link (content : String)
deriving Repr

/-- makeFile of WebFS.ts: size is the content length. -/
def makeFile (content : String) : VNode := .file content.length content

/-- makeLink of WebFS.ts. -/
def makeLink (content : String) : VNode := .link content

/-- makeDirectory of WebFS.ts. -/
def makeDirectory (content : List (String × VNode)) : VNode := .dir content

def VNode.isDir : VNode → Bool
  | .dir _ => true
  | _ => false

def VNode.isFile : VNode → Bool
  | .file _ _ => true
  | _ => false

def VNode.isLink : VNode → Bool
  | .link _ => true
  | _ => false

/-- VFSPath of WebFS.ts: the ephemeral result of traversal, a node plus
the location used to reach it.  A root path always denotes the root
directory of a VFSFileSystem (whose root field has type VFSDirectory),
so the root constructor carries the directory content directly. -/
inductive VPath where
  | root (content : List (String × VNode))
  | child (node : VNode) (name : String) (parent : VPath)
deriving Repr

def VPath.node : VPath → VNode
  | .root c => .dir c
  | .child n _ _ => n

/-- The stored path string: makeRoot uses "/", makePath appends the name
and a trailing "/" for directories. -/
def VPath.pathStr : VPath → String
  | .root _ => "/"
  | .child n name parent => parent.pathStr ++ name ++ (if n.isDir then "/" else "")

/-- The parent move of the walk (`if (current.parent) current = current.parent`):
the root path has a null parent and stays in place. -/
def VPath.parentOrSelf : VPath → VPath
  | .root c => .root c
  | .child _ _ parent => parent

/-- JS object property read (`content[name]`): keys are unique in any
object the source builds, so the first binding wins. -/
def jsGet {α : Type} : List (String × α) → String → Option α
  | [], _ => none
  | (k, v) :: rest, name => if k = name then some v else jsGet rest name

/-- JS object property write (`content[name] = v`): overwrite in place if
the key exists, otherwise append. -/
def jsSet {α : Type} : List (String × α) → String → α → List (String × α)
  | [], name, v => [(name, v)]
  | (k, w) :: rest, name, v =>
    if k = name then (k, v) :: rest else (k, w) :: jsSet rest name v

/-- Splitting pass of decode (WebFS.ts line 137): the raw parts between
occurrences of the separator, where a separator preceded by a backslash
is not a boundary and stays inside the current part.  The accumulator
holds the current part reversed, so its head is the previously read
character. -/
def rawParts : List Char → List Char → List (List Char)
  | [], acc => [acc.reverse]
  | c :: rest, acc =>
    if c = '/' then
      if acc.head? = some '\\' then rawParts rest (c :: acc)
      else acc.reverse :: rawParts rest []
    else rawParts rest (c :: acc)

/-- decode of WebFS.ts: yields the parts that are nonempty and differ
from the single dot. -/
def decode (path : String) : List String :=
  ((rawParts path.data []).map fun part => String.mk part).filter
    fun part => part != "" && part != "."

/-- MAX_SYMLINK_DEPTH of WebFS.ts. -/
def MAX_SYMLINK_DEPTH : Nat := 20

/-- Error kinds thrown or signalled by the source; fuel marks exhaustion
of the totality fuel of the embedding (never a behaviour of the JS). -/
inductive FsErr where
  | enoent (path : String)
  | eisdir (path : String)
  | enotdir (path : String)
  | ecyclic
  | manifestInvalid
  | fuel
deriving Repr, DecidableEq

mutual

/-- lfind of WebFS.ts: choose the start (root for an absolute specifier,
cwd otherwise) and walk the decoded components. -/
def lfind (fuel : Nat) (root : List (String × VNode)) (cwd : VPath)
    (path : String) (depth : Nat) : Except FsErr (Option VPath) :=
  lfindLoop fuel root depth (decode path)
    (if path.data.head? = some '/' then VPath.root root else cwd)
termination_by (fuel, 3, 0, 0)

/-- The component loop of lfind: before consuming a component, a symlink
current node is resolved via realnode with the symlinkDepth parameter. -/
def lfindLoop (fuel : Nat) (root : List (String × VNode)) (depth : Nat) :
    List String → VPath → Except FsErr (Option VPath)
  | [], current => .ok (some current)
  | part :: rest, current =>
    match current.node with
    | .link _ =>
      match realnodeGo fuel root (some current) depth with
      | .error e => .error e
      | .ok none => .ok none
      | .ok (some next) => lfindStep fuel root depth part rest next
    | _ => lfindStep fuel root depth part rest current
termination_by parts _ => (fuel, 2, parts.length, 1)

/-- One component consumption of lfind: ensureIsDirPath throws ENOTDIR on
a non-directory; a parent component moves to the parent path (no-op at
the root, whose parent is null); otherwise look the name up, null when
absent. -/
def lfindStep (fuel : Nat) (root : List (String × VNode)) (depth : Nat)
    (part : String) (rest : List String) (current : VPath) :
    Except FsErr (Option VPath) :=
  match current.node with
  | .dir c =>
    if part = ".." then lfindLoop fuel root depth rest current.parentOrSelf
    else
      match jsGet c part with
      | none => .ok none
      | some next => lfindLoop fuel root depth rest (.child next part current)
  | _ => .error (.enotdir current.pathStr)
termination_by (fuel, 2, rest.length + 1, 0)

/-- The loop of realnode (WebFS.ts line 153): while the path denotes a
symlink, reinterpret its stored specifier relative to its parent via
lfind (with the default MAX_SYMLINK_DEPTH), at most remaining more
times; running out of remaining steps is the ECYCLIC failure.  remaining
starts at the symlinkDepth argument, matching the counter i of the
source (i >= symlinkDepth iff remaining = 0). -/
def realnodeGo (fuel : Nat) (root : List (String × VNode)) :
    Option VPath → Nat → Except FsErr (Option VPath)
  | none, _ => .ok none
  | some p, remaining =>
    match p with
    | .child (.link target) _ parent =>
      match remaining with
      | 0 => .error .ecyclic
      | rem + 1 =>
        match fuel with
        | 0 => .error .fuel
        | f + 1 =>
          match lfind f root parent target MAX_SYMLINK_DEPTH with
          | .error e => .error e
          | .ok next => realnodeGo f root next rem
    | _ => .ok (some p)
termination_by _ _ => (fuel, 1, 0, 0)

end

/-- realnode of WebFS.ts with an explicit symlinkDepth. -/
def realnode (fuel : Nat) (root : List (String × VNode)) (p : Option VPath)
    (depth : Nat) : Except FsErr (Option VPath) :=
  realnodeGo fuel root p depth

/-- lget of WebFS.ts: direct child lookup, no symlink resolution. -/
def lget (cwd : VPath) (name : String) : Option VPath :=
  match cwd.node with
  | .dir c => (jsGet c name).map fun n => .child n name cwd
  | _ => none

/-- get of WebFS.ts: lget followed by realnode at the default depth. -/
def get (fuel : Nat) (root : List (String × VNode)) (cwd : VPath)
    (name : String) : Except FsErr (Option VPath) :=
  realnodeGo fuel root (lget cwd name) MAX_SYMLINK_DEPTH

/-- find of WebFS.ts: lfind followed by realnode at the default depth. -/
def find (fuel : Nat) (root : List (String × VNode)) (cwd : VPath)
    (path : String) : Except FsErr (Option VPath) :=
  match lfind fuel root cwd path MAX_SYMLINK_DEPTH with
  | .error e => .error e
  | .ok p => realnodeGo fuel root p MAX_SYMLINK_DEPTH

/-! ### The module resolver of VirtualNode.ts -/

/-- One value of a platform-override (browser) map: the disable sentinel
(JSON false) or a replacement specifier string. -/
inductive BVal where
  | disable
  | replace (s : String)
deriving Repr, DecidableEq

/-- The browser field of a manifest: a map (JS typeof object) or a direct
entry specifier (typeof string). -/
inductive BrowserField where
  | obj (entries : List (String × BVal))
  | str (s : String)
deriving Repr

/-- The parsed manifest fields the resolver and installer consume.
JSON.parse itself is a JS primitive: it enters the embedding as an
explicit parse function of type String to Option Pkg (none models a
parse exception). -/
structure Pkg where
  main : Option String
  browser : Option BrowserField
  dependencies : List (String × String)

/-- findClosest of VirtualNode.ts (the first production of the
findInPaths generator): look the name up in cwd and then in each
ancestor directory; an entry that is present but whose symlink
resolution yields null is skipped. -/
def findClosest (fuel : Nat) (root : List (String × VNode)) :
    VPath → String → Except FsErr (Option VPath)
  | .root rc, name =>
    match jsGet rc name with
    | some _ =>
      match get fuel root (.root rc) name with
      | .error e => .error e
      | .ok (some p) => .ok (some p)
      | .ok none => .ok none
    | none => .ok none
  | .child n nm parent, name =>
    match n with
    | .dir c =>
      match jsGet c name with
      | some _ =>
        match get fuel root (.child n nm parent) name with
        | .error e => .error e
        | .ok (some p) => .ok (some p)
        | .ok none => findClosest fuel root parent name
      | none => findClosest fuel root parent name
    | _ => findClosest fuel root parent name

/-- The dot-slash prefix test (startsWith of the source, stated on the
character list so that it computes by kernel reduction). -/
def startsWithDotSlash (s : String) : Bool :=
  match s.data with
  | '.' :: '/' :: _ => true
  | _ => false

/-- isFileOrNotFound of VirtualNode.ts. -/
def isFileOrNotFound : Option VPath → Option VPath
  | some p => if p.node.isFile then some p else none
  | none => none

/-- The node mapBrowser fabricates for one override value: an empty stub
file for the disable sentinel, a symlink holding the replacement
specifier otherwise. -/
def bvalNode : BVal → VNode
  | .disable => makeFile ""
  | .replace v => makeLink v

/-- One entry of mapBrowser: resolve the fabricated node from the package
directory (a null resolution falls back to a stub file path), keep only
file results, and key the entry by the resolved path string when the
name has a separator (else by the name; an unresolved separator name is
normalized to a dot-slash form). -/
def mapBrowserEntry (fuel : Nat) (root : List (String × VNode)) (cwd : VPath)
    (name : String) (value : BVal) : Except FsErr (String × Option VPath) :=
  match realnode fuel root (some (.child (bvalNode value) name cwd))
      MAX_SYMLINK_DEPTH with
  | .error e => .error e
  | .ok resolved =>
    let path := isFileOrNotFound (match resolved with
      | some p => some p
      | none => some (.child (makeFile "") name cwd))
    .ok
      (if name.data.contains '/' then
        match path with
        | some p => p.pathStr
        | none => if startsWithDotSlash name then name else "./" ++ name
      else name, path)

def mapBrowserFold (fuel : Nat) (root : List (String × VNode)) (cwd : VPath) :
    List (String × BVal) → List (String × Option VPath) →
    Except FsErr (List (String × Option VPath))
  | [], acc => .ok acc
  | (name, value) :: rest, acc =>
    match mapBrowserEntry fuel root cwd name value with
    | .error e => .error e
    | .ok (key, path) => mapBrowserFold fuel root cwd rest (jsSet acc key path)

/-- mapBrowser of VirtualNode.ts: an object browser field is translated
entry by entry (Object.fromEntries, later keys overwriting earlier);
anything else gives the empty map. -/
def mapBrowser (fuel : Nat) (root : List (String × VNode)) (cwd : VPath) :
    Option BrowserField → Except FsErr (List (String × Option VPath))
  | some (.obj entries) => mapBrowserFold fuel root cwd entries []
  | _ => .ok []

/-- The reader produced by createReader of VirtualNode.ts: an exact
browser-map hit with a truthy value intercepts; otherwise find the path
and intercept on the found path string; else return what was found. -/
def createReader (fuel : Nat) (root : List (String × VNode)) (cwd : VPath)
    (browser : List (String × Option VPath)) (path : String) :
    Except FsErr (Option VPath) :=
  match jsGet browser path with
  | some (some intercepted) => .ok (some intercepted)
  | _ =>
    match find fuel root cwd path with
    | .error e => .error e
    | .ok (some fp) =>
      match jsGet browser fp.pathStr with
      | some (some q) => .ok (some q)
      | _ => .ok (some fp)
    | .ok none => .ok none

/-- loadAsFile of VirtualNode.ts: the short-circuit disjunction of the
reads of the exact path and the path with the two suffixes, filtered to
files; note a truthy non-file read short-circuits the later reads. -/
def loadAsFile (fuel : Nat) (root : List (String × VNode)) (cwd : VPath)
    (browser : List (String × Option VPath)) (path : String) :
    Except FsErr (Option VPath) :=
  match createReader fuel root cwd browser path with
  | .error e => .error e
  | .ok (some p) => .ok (isFileOrNotFound (some p))
  | .ok none =>
    match createReader fuel root cwd browser (path ++ ".js") with
    | .error e => .error e
    | .ok (some p) => .ok (isFileOrNotFound (some p))
    | .ok none =>
      match createReader fuel root cwd browser (path ++ ".json") with
      | .error e => .error e
      | .ok r => .ok (isFileOrNotFound r)

/-- loadAsIndex of VirtualNode.ts. -/
def loadAsIndex (fuel : Nat) (root : List (String × VNode)) (cwd : VPath)
    (browser : List (String × Option VPath)) (path : String) :
    Except FsErr (Option VPath) :=
  match createReader fuel root cwd browser (path ++ "/index.js") with
  | .error e => .error e
  | .ok (some p) => .ok (isFileOrNotFound (some p))
  | .ok none =>
    match createReader fuel root cwd browser (path ++ "/index.json") with
    | .error e => .error e
    | .ok r => .ok (isFileOrNotFound r)

/-- loadAsDirectoryPackage of VirtualNode.ts: read and parse the
directory's own manifest (absent manifest gives null, a directory at
package.json throws EISDIR, an unparseable manifest is a parse failure),
build the directory's own browser map and reader, choose the entry name
(the requested subpath if truthy, else the browser-string or main field
if truthy, else index.js) and apply the file-then-index strategy. -/
def loadAsDirectoryPackage (fuel : Nat) (root : List (String × VNode))
    (cwd : VPath) (parse : String → Option Pkg) (requested : Option String) :
    Except FsErr (Option VPath) :=
  match get fuel root cwd "package.json" with
  | .error e => .error e
  | .ok none => .ok none
  | .ok (some pkgFile) =>
    match pkgFile.node with
    | .file _ content =>
      match parse content with
      | none => .error .manifestInvalid
      | some pkg =>
        match (match pkg.browser with
          | some (.obj entries) =>
            mapBrowser fuel root pkgFile.parentOrSelf (some (.obj entries))
          | _ => .ok []) with
        | .error e => .error e
        | .ok browser =>
          let m0 := match pkg.browser with
            | some (.str s) => s
            | _ => pkg.main.getD ""
          let mainEntry := match requested with
            | some r => r
            | none => if m0 = "" then "index.js" else m0
          match loadAsFile fuel root cwd browser mainEntry with
          | .error e => .error e
          | .ok (some p) => .ok (some p)
          | .ok none => loadAsIndex fuel root cwd browser mainEntry
    | _ => .error (.eisdir pkgFile.pathStr)

/-- loadAsDirectory of VirtualNode.ts: if the path names a directory, try
its index files through the outer reader, then its own manifest. -/
def loadAsDirectory (fuel : Nat) (root : List (String × VNode)) (cwd : VPath)
    (browser : List (String × Option VPath)) (parse : String → Option Pkg)
    (path : String) : Except FsErr (Option VPath) :=
  match find fuel root cwd path with
  | .error e => .error e
  | .ok (some targetDir) =>
    match targetDir.node with
    | .dir _ =>
      match loadAsIndex fuel root cwd browser path with
      | .error e => .error e
      | .ok (some p) => .ok (some p)
      | .ok none => loadAsDirectoryPackage fuel root targetDir parse none
    | _ => .ok none
  | .ok none => .ok none

/-- The decomposition applied to a bare specifier by loadAsPackage
(the anchored expression namespace slash package-name slash subpath,
namespace and subpath optional, namespace beginning with the at sign and
free of separators, package name free of separators and at signs, subpath
nonempty): none models a failed match, whose destructuring fallback sets
namespace to the whole specifier and the other parts empty. -/
def bareTail (l : List Char) : Option (String × String) :=
  let pk := l.takeWhile fun c => !(c = '@' || c = '/')
  let rest := l.dropWhile fun c => !(c = '@' || c = '/')
  if pk.isEmpty then none
  else match rest with
    | [] => some (String.mk pk, "")
    | '/' :: t => if t.isEmpty then none else some (String.mk pk, String.mk t)
    | _ => none

def bareIdParts (id : String) : Option (Option String × String × String) :=
  match id.data with
  | [] => none
  | c :: rest =>
    if c = '@' then
      let ns := rest.takeWhile fun c => !(c = '/')
      let rem := rest.dropWhile fun c => !(c = '/')
      if ns.isEmpty then none
      else match rem with
        | '/' :: rem2 =>
          (bareTail rem2).map fun pkmp =>
            (some (String.mk ('@' :: ns)), pkmp.1, pkmp.2)
        | _ => none
    else (bareTail (c :: rest)).map fun pkmp => (none, pkmp.1, pkmp.2)

/-- The directory-entry name loadAsPackage looks up for a bare
specifier: the namespace (when truthily captured), a plus sign and the
package name, else the package name alone. -/
def resolverPkgKey (id : String) : String :=
  match bareIdParts id |>.getD (some id, "", "") with
  | (ns, pkgName, _) =>
    match ns with
    | some n => if n = "" then pkgName else n ++ "+" ++ pkgName
    | none => pkgName

/-- The body of one loadAsPackage iteration at a dependency directory:
ok none requests continuing with the next ancestor, ok (some r) is an
early return of r. -/
def loadAsPackageHere (fuel : Nat) (root : List (String × VNode))
    (browser : List (String × Option VPath)) (parse : String → Option Pkg)
    (id : String) (nm : VPath) : Except FsErr (Option (Option VPath)) :=
  match bareIdParts id |>.getD (some id, "", "") with
  | (_, pkgName, modulePath) =>
    match jsGet browser pkgName with
    | some (some intercepted) => .ok (some (some intercepted))
    | _ =>
      let name := resolverPkgKey id
      match get fuel root nm name with
      | .error e => .error e
      | .ok (some pkgDir) =>
        match pkgDir.node with
        | .dir _ =>
          match loadAsDirectoryPackage fuel root pkgDir parse
              (if modulePath = "" then none else some modulePath) with
          | .error e => .error e
          | .ok r => .ok (some r)
        | _ => .ok none
      | .ok none => .ok none

/-- loadAsPackage of VirtualNode.ts: iterate the dependency directories
produced by findInPaths over the ancestors of cwd; inside a directory
one, an interception or a found package directory returns, anything else
falls through to the next ancestor; exhaustion is null. -/
def loadAsPackage (fuel : Nat) (root : List (String × VNode))
    (browser : List (String × Option VPath)) (parse : String → Option Pkg)
    (id : String) : VPath → Except FsErr (Option VPath)
  | .root rc =>
    match jsGet rc "node_modules" with
    | some _ =>
      match get fuel root (.root rc) "node_modules" with
      | .error e => .error e
      | .ok (some nm) =>
        match nm.node with
        | .dir _ =>
          match loadAsPackageHere fuel root browser parse id nm with
          | .error e => .error e
          | .ok (some r) => .ok r
          | .ok none => .ok none
        | _ => .ok none
      | .ok none => .ok none
    | none => .ok none
  | .child n nmname parent =>
    match n with
    | .dir c =>
      match jsGet c "node_modules" with
      | some _ =>
        match get fuel root (.child n nmname parent) "node_modules" with
        | .error e => .error e
        | .ok (some nm) =>
          match nm.node with
          | .dir _ =>
            match loadAsPackageHere fuel root browser parse id nm with
            | .error e => .error e
            | .ok (some r) => .ok r
            | .ok none => loadAsPackage fuel root browser parse id parent
          | _ => loadAsPackage fuel root browser parse id parent
        | .ok none => loadAsPackage fuel root browser parse id parent
      | none => loadAsPackage fuel root browser parse id parent
    | _ => loadAsPackage fuel root browser parse id parent

/-- The test of the anchored dot-dot-slash expression gating the
relative branch of resolve: zero to two dots followed by the separator,
at the start of the specifier. -/
def isRelSpec (id : String) : Bool :=
  match id.data with
  | '/' :: _ => true
  | '.' :: '/' :: _ => true
  | '.' :: '.' :: '/' :: _ => true
  | _ => false

/-- The relative branch of resolve: loadAsFile short-circuited into
loadAsDirectory. -/
def relResolve (fuel : Nat) (root : List (String × VNode)) (cwd : VPath)
    (browser : List (String × Option VPath)) (parse : String → Option Pkg)
    (id : String) : Except FsErr (Option VPath) :=
  match loadAsFile fuel root cwd browser id with
  | .error e => .error e
  | .ok (some p) => .ok (some p)
  | .ok none => loadAsDirectory fuel root cwd browser parse id

/-- resolve of VirtualNode.ts: read the closest manifest (ENOENT if none,
EISDIR if a directory, a parse failure propagates), build its browser
map; a relative or absolute specifier goes through loadAsFile then
loadAsDirectory, a bare one through loadAsPackage; a null outcome is the
ENOENT failure naming the original specifier. -/
def resolve (fuel : Nat) (root : List (String × VNode)) (cwd : VPath)
    (parse : String → Option Pkg) (id : String) : Except FsErr VPath :=
  match findClosest fuel root cwd "package.json" with
  | .error e => .error e
  | .ok none => .error (.enoent "package.json")
  | .ok (some pkgFile) =>
    match pkgFile.node with
    | .file _ content =>
      match parse content with
      | none => .error .manifestInvalid
      | some pkg =>
        match mapBrowser fuel root pkgFile.parentOrSelf pkg.browser with
        | .error e => .error e
        | .ok browser =>
          match (if isRelSpec id then
              relResolve fuel root cwd browser parse id
            else loadAsPackage fuel root browser parse id cwd) with
          | .error e => .error e
          | .ok (some p) => .ok p
          | .ok none => .error (.enoent id)
    | _ => .error (.eisdir pkgFile.pathStr)

/-- Modelled from the claim wording, for comparison with relResolve: the
amended candidate order for a relative specifier.  The exact path is
read first; a read yielding a non-file diverts directly to the directory
strategy, skipping the remaining suffix candidates; otherwise the .js
and then .json suffixes are tried (again with non-file reads diverting);
exhausted file candidates fall back to the directory strategy. -/
def specAmendedRelResolve (fuel : Nat) (root : List (String × VNode))
    (cwd : VPath) (browser : List (String × Option VPath))
    (parse : String → Option Pkg) (id : String) : Except FsErr (Option VPath) :=
  match createReader fuel root cwd browser id with
  | .error e => .error e
  | .ok (some p) =>
    if p.node.isFile then .ok (some p)
    else loadAsDirectory fuel root cwd browser parse id
  | .ok none =>
    match createReader fuel root cwd browser (id ++ ".js") with
    | .error e => .error e
    | .ok (some p) =>
      if p.node.isFile then .ok (some p)
      else loadAsDirectory fuel root cwd browser parse id
    | .ok none =>
      match createReader fuel root cwd browser (id ++ ".json") with
      | .error e => .error e
      | .ok (some p) =>
        if p.node.isFile then .ok (some p)
        else loadAsDirectory fuel root cwd browser parse id
      | .ok none => loadAsDirectory fuel root cwd browser parse id

/-- Modelled from the claim wording, for comparison with resolve: the
amended resolution of a relative specifier end to end, with the manifest
prologue of resolve and the NOTFOUND failure naming the original
specifier on exhaustion. -/
def specAmendedResolve (fuel : Nat) (root : List (String × VNode))
    (cwd : VPath) (parse : String → Option Pkg) (id : String) :
    Except FsErr VPath :=
  match findClosest fuel root cwd "package.json" with
  | .error e => .error e
  | .ok none => .error (.enoent "package.json")
  | .ok (some pkgFile) =>
    match pkgFile.node with
    | .file _ content =>
      match parse content with
      | none => .error .manifestInvalid
      | some pkg =>
        match mapBrowser fuel root pkgFile.parentOrSelf pkg.browser with
        | .error e => .error e
        | .ok browser =>
          match specAmendedRelResolve fuel root cwd browser parse id with
          | .error e => .error e
          | .ok (some p) => .ok p
          | .ok none => .error (.enoent id)
    | _ => .error (.eisdir pkgFile.pathStr)

/-- Modelled from the claim wording, as stated (before amendment): try
each candidate, in the claimed fixed order, as a file; first success
wins; then the directory strategy via the directory's own manifest. -/
def specFirstFile (fuel : Nat) (root : List (String × VNode)) (cwd : VPath)
    (browser : List (String × Option VPath)) :
    List String → Except FsErr (Option VPath)
  | [] => .ok none
  | s :: rest =>
    match createReader fuel root cwd browser s with
    | .error e => .error e
    | .ok r =>
      match isFileOrNotFound r with
      | some p => .ok (some p)
      | none => specFirstFile fuel root cwd browser rest

/-- Modelled from the claim wording, as stated: the fixed candidate order
of the claim for a relative specifier: the exact path as a file, then
the .js and .json suffixes, then the directory index files, then the
directory's own manifest entry by the file-then-index strategy. -/
def specFixedOrderRel (fuel : Nat) (root : List (String × VNode))
    (cwd : VPath) (browser : List (String × Option VPath))
    (parse : String → Option Pkg) (id : String) : Except FsErr (Option VPath) :=
  match specFirstFile fuel root cwd browser
      [id, id ++ ".js", id ++ ".json", id ++ "/index.js", id ++ "/index.json"] with
  | .error e => .error e
  | .ok (some p) => .ok (some p)
  | .ok none =>
    match find fuel root cwd id with
    | .error e => .error e
    | .ok (some targetDir) =>
      if targetDir.node.isDir then
        loadAsDirectoryPackage fuel root targetDir parse none
      else .ok none
    | .ok none => .ok none

/-! ### Properties of decode and traversal -/

/-- A directory-entry name that is a single plain path component: nonempty,
not the current- or parent-directory component, and free of separator and
escape characters. -/
def GoodName (name : String) : Prop :=
  name ≠ "" ∧ name ≠ "." ∧ name ≠ ".." ∧ '/' ∉ name.data ∧ '\\' ∉ name.data

instance (name : String) : Decidable (GoodName name) := by
  unfold GoodName; infer_instance

/-- The traversal-reachability predicate of the round-trip claim: the path
descends from the root through directory entries whose names are plain
components. -/
inductive Reach (root : List (String × VNode)) : VPath → Prop where
  | root : Reach root (.root root)
  | step {p : VPath} {c : List (String × VNode)} {name : String} {node : VNode} :
      Reach root p → p.node = .dir c → jsGet c name = some node → GoodName name →
      Reach root (.child node name p)

/-- The component names along a path, outermost first. -/
def pathNames : VPath → List String
  | .root _ => []
  | .child _ name p => pathNames p ++ [name]

/-- The raw decode parts contributed by the encoded prefix of a directory
path: a leading empty part (before the root separator) then the names. -/
def partsPre : VPath → List (List Char)
  | .root _ => [[]]
  | .child _ name p => partsPre p ++ [name.data]

def c6Root : List (String × VNode) := [("a", VNode.dir [("b", VNode.file 1 "x")])]

def c6P : VPath :=
  .child (VNode.file 1 "x") "b"
    (.child (VNode.dir [("b", VNode.file 1 "x")]) "a" (.root c6Root))

/-- The node of the j-th entry of a symlink chain of length N: a link to
the next entry while j < N, the final target at j = N. -/
def chainNode (f : Nat → String) (tgt : VNode) (N j : Nat) : VNode :=
  if j < N then makeLink (f (j + 1)) else tgt

/-- The path of the j-th entry of a symlink chain, all entries siblings in
the directory cwd. -/
def chainPath (cwd : VPath) (f : Nat → String) (tgt : VNode) (N j : Nat) : VPath :=
  .child (chainNode f tgt N j) (f j) cwd

/-- Names of the entries of the concrete witness chain. -/
def aname (i : Nat) : String := String.mk (List.replicate (i + 1) 'a')

/-- The concrete witness chain directory of N links followed by a file. -/
def chainC (N : Nat) : List (String × VNode) :=
  ((List.range N).map fun i => (aname i, makeLink (aname (i + 1))))
    ++ [(aname N, VNode.file 1 "t")]

/-! ### The dependency installer of VirtualNPM.ts

install mutates the shared tree in place through Path objects.  The
embedding threads the root directory content as explicit state and
addresses the mutated directories by their access path (the entry names
from the root), which coincides with the location of the Path objects
the source holds because the mutated directories are reached through
plain directory entries.  The sibling fan-out of the source (all
dependency bodies started before any is awaited) is modelled
sequentially; the claims proved below concern manifests with at most one
declared dependency, for which the two schedules coincide. -/

/-- Descend from a directory content through entry names. -/
def getAt : VNode → List String → Option VNode
  | n, [] => some n
  | .dir c, name :: rest =>
    match jsGet c name with
    | some v => getAt v rest
    | none => none
  | _, _ :: _ => none

/-- Functionally update the directory content at an access path. -/
def updateAt (t : VNode) : List String →
    (List (String × VNode) → List (String × VNode)) → VNode
  | [], f =>
    match t with
    | .dir c => .dir (f c)
    | n => n
  | name :: rest, f =>
    match t with
    | .dir c => .dir (c.map fun kv => if kv.1 = name then (kv.1, updateAt kv.2 rest f) else kv)
    | n => n

def mkVPathGo : VPath → List String → Option VPath
  | p, [] => some p
  | p, name :: rest =>
    match p.node with
    | .dir c =>
      match jsGet c name with
      | some v => mkVPathGo (.child v name p) rest
      | none => none
    | _ => none

/-- Rebuild the Path of an access path over the current tree. -/
def mkVPath (root : List (String × VNode)) (acc : List String) : Option VPath :=
  mkVPathGo (.root root) acc

/-- The access path of a Path: the entry names from the root. -/
def VPath.access : VPath → List String
  | .root _ => []
  | .child _ n p => p.access ++ [n]

/-- The name normalization of install (the replace of the first separator
by a plus sign). -/
def replaceFirstSlashAux : List Char → List Char
  | [] => []
  | c :: rest => if c = '/' then '+' :: rest else c :: replaceFirstSlashAux rest

def replaceFirstSlash (s : String) : String := String.mk (replaceFirstSlashAux s.data)

/-- The content list of a directory node (the updated tree root is always
a directory). -/
def VNode.dir! : VNode → List (String × VNode)
  | .dir c => c
  | _ => []

/-- The state threaded through install: the root directory content of the
shared filesystem and the log of fetchRemote invocations. -/
structure InstallState where
  tree : List (String × VNode)
  fetchLog : List (String × String)
deriving Repr

/-- One dependency body of install: skip a dependency disabled by the
platform-override map; otherwise compute the qualified identifier, reuse
an existing entry of the dependency directory or fetch, graft the
package root under the qualified identifier and the alias symlink under
the normalized bare name, and report the grafted access path for the
recursive pass. -/
def installDepOne (tf : Nat) (fetch : String → String → List (String × VNode))
    (browser : List (String × BVal)) (nmAcc : List String)
    (name version : String) (st : InstallState) :
    InstallState × Except FsErr (Option (List String)) :=
  if jsGet browser name = some BVal.disable then (st, .ok none)
  else
    let safeName := replaceFirstSlash name
    let idq := safeName ++ "@" ++ version
    match mkVPath st.tree nmAcc with
    | none => (st, .error (.enoent "node_modules"))
    | some nmPath =>
      match find tf st.tree nmPath idq with
      | .error e => (st, .error e)
      | .ok installedOpt =>
        let fetchStep : InstallState × Except FsErr VNode :=
          match installedOpt with
          | none =>
            let fetched := fetch name version
            ({ st with fetchLog := st.fetchLog ++ [(name, version)] },
             .ok (.dir fetched))
          | some installedPath =>
            if installedPath.node.isDir then (st, .ok installedPath.node)
            else (st, .error (.enotdir installedPath.pathStr))
        match fetchStep with
        | (st₁, .error e) => (st₁, .error e)
        | (st₁, .ok pkgNode) =>
          ({ st₁ with tree := (updateAt (.dir st₁.tree) nmAcc
              fun c => jsSet (jsSet c idq pkgNode) safeName (makeLink idq)).dir! },
           .ok (some (nmAcc ++ [idq])))

def installDepsLoop (tf : Nat) (fetch : String → String → List (String × VNode))
    (browser : List (String × BVal)) (nmAcc : List String) :
    List (String × String) → InstallState →
    InstallState × Except FsErr (List (List String))
  | [], st => (st, .ok [])
  | (name, version) :: rest, st =>
    match installDepOne tf fetch browser nmAcc name version st with
    | (st₁, .error e) => (st₁, .error e)
    | (st₁, .ok none) => installDepsLoop tf fetch browser nmAcc rest st₁
    | (st₁, .ok (some tgt)) =>
      match installDepsLoop tf fetch browser nmAcc rest st₁ with
      | (st₂, .error e) => (st₂, .error e)
      | (st₂, .ok tgts) => (st₂, .ok (tgt :: tgts))

mutual

/-- install of VirtualNPM.ts over the threaded state; fuel bounds the
recursion depth of the dependency graph.  The manifest and dependency
directory are looked up first, a missing dependency directory is created
(before the manifest existence check throws, as in the source), the
ensure chain raises ENOENT, EISDIR and ENOTDIR in the source order, the
manifest is parsed, each declared dependency is processed, and install
recurses into each grafted dependency root. -/
def installF (fuel : Nat) (parse : String → Option Pkg)
    (fetch : String → String → List (String × VNode))
    (st : InstallState) (acc : List String) :
    InstallState × Except FsErr Unit :=
  match fuel with
  | 0 => (st, .error .fuel)
  | fuel + 1 =>
    match mkVPath st.tree acc with
    | none => (st, .error (.enoent "cwd"))
    | some cwdPath =>
      match find (fuel + 1) st.tree cwdPath "package.json" with
      | .error e => (st, .error e)
      | .ok pkgJsonOpt =>
        match find (fuel + 1) st.tree cwdPath "node_modules" with
        | .error e => (st, .error e)
        | .ok nmOpt =>
          let st₁ : InstallState :=
            match nmOpt with
            | some _ => st
            | none =>
              { st with tree := (updateAt (.dir st.tree) acc
                  fun c => jsSet c "node_modules" (.dir [])).dir! }
          let nmAcc : List String :=
            match nmOpt with
            | some nmPath => nmPath.access
            | none => acc ++ ["node_modules"]
          match pkgJsonOpt with
          | none => (st₁, .error (.enoent (cwdPath.pathStr ++ "package.json")))
          | some pkgJson =>
            match pkgJson.node with
            | .file _ content =>
              match nmOpt with
              | some nmPath =>
                if nmPath.node.isDir then
                  installBody fuel parse fetch st₁ content nmAcc
                else (st₁, .error (.enotdir nmPath.pathStr))
              | none => installBody fuel parse fetch st₁ content nmAcc
            | _ => (st₁, .error (.eisdir pkgJson.pathStr))
termination_by (fuel, 0, 0)

/-- The body of install after the ensure chain: parse the manifest,
process the dependencies, recurse into the grafted roots. -/
def installBody (fuel : Nat) (parse : String → Option Pkg)
    (fetch : String → String → List (String × VNode))
    (st : InstallState) (content : String) (nmAcc : List String) :
    InstallState × Except FsErr Unit :=
  match parse content with
  | none => (st, .error .manifestInvalid)
  | some pkg =>
    let browser : List (String × BVal) :=
      match pkg.browser with
      | some (.obj es) => es
      | _ => []
    match installDepsLoop (fuel + 1) fetch browser nmAcc pkg.dependencies st with
    | (st₁, .error e) => (st₁, .error e)
    | (st₁, .ok tgts) => installRecLoop fuel parse fetch tgts st₁
termination_by (fuel, 3, 0)

def installRecLoop (fuel : Nat) (parse : String → Option Pkg)
    (fetch : String → String → List (String × VNode)) :
    List (List String) → InstallState → InstallState × Except FsErr Unit
  | [], st => (st, .ok ())
  | tgt :: rest, st =>
    match installF fuel parse fetch st tgt with
    | (st₁, .ok _) => installRecLoop fuel parse fetch rest st₁
    | (st₁, .error e) => (st₁, .error e)
termination_by tgts _ => (fuel, 2, tgts.length)

end

/-! ### The require cache of VirtualNode.ts (createRequireFromPath)

The evaluator (invoke / invokeJS) executes a file's code; its only
interaction with the loader is the sequence of nested require calls the
code performs and the final population of module.exports.  The embedding
therefore models a file's code as the list of specifiers it requires
(prog), the opaque resolve step of require as a function from current
directory and specifier to resolved filename and dirname, and an exports
object as the numeric token allocated at module creation.  The state
carries the require cache (keys to module tokens; a bare alias key and
the filename key share one token as the source shares one object), the
module table, the log of evaluator invocations in order, and the token
counter.  Children bookkeeping of the source (module.children) touches
no cache or evaluation behaviour and is not modelled. -/

structure RMod where
  exports : Nat
  loaded : Bool
deriving Repr

structure RState where
  cache : List (String × Nat)
  mods : List (Nat × RMod)
  evalLog : List String
  nextTok : Nat
deriving Repr

def tokGet : List (Nat × RMod) → Nat → Option RMod
  | [], _ => none
  | (k, v) :: rest, t => if k = t then some v else tokGet rest t

def tokSet : List (Nat × RMod) → Nat → RMod → List (Nat × RMod)
  | [], t, v => [(t, v)]
  | (k, w) :: rest, t, v =>
    if k = t then (k, v) :: rest else (k, w) :: tokSet rest t v

/-- The exports object of the module registered under a token. -/
def exportsOf (s : RState) (tok : Nat) : Option Nat :=
  (tokGet s.mods tok).map RMod.exports

mutual

/-- require of createRequireFromPath: a bare specifier present in the
cache returns its exports; otherwise resolve, return the cached entry's
exports on a hit, and on a miss create the module (fresh empty exports,
loaded false), register it in the cache under the resolved filename (and
under the bare specifier) before invoking the evaluator, run the file's
nested requires, and finally mark the module loaded. -/
def requireF (prog : String → List String)
    (resolveFn : String → String → Option (String × String)) :
    Nat → String → String → RState → Option Nat × RState
  | 0, _, _, s => (none, s)
  | fuel + 1, cwd, id, s =>
    if !id.data.contains '/' && (jsGet s.cache id).isSome then
      match jsGet s.cache id with
      | some tok => (exportsOf s tok, s)
      | none => (none, s)
    else
      match resolveFn cwd id with
      | none => (none, s)
      | some (filename, dirname) =>
        match jsGet s.cache filename with
        | some tok => (exportsOf s tok, s)
        | none =>
          let tok := s.nextTok
          let cache₁ := jsSet s.cache filename tok
          let cache₂ := if id.data.contains '/' then cache₁
            else jsSet cache₁ id tok
          let s₁ : RState :=
            { cache := cache₂, mods := tokSet s.mods tok ⟨tok, false⟩,
              evalLog := s.evalLog ++ [filename], nextTok := s.nextTok + 1 }
          match requireListF prog resolveFn fuel (prog filename) dirname s₁ with
          | (true, s₂) =>
            (some tok, { s₂ with mods := tokSet s₂.mods tok ⟨tok, true⟩ })
          | (false, s₂) => (none, s₂)
termination_by fuel _ _ _ => (fuel, 0)

/-- The nested require calls the evaluator performs while executing one
file, in order; a thrown nested require aborts (mutations retained). -/
def requireListF (prog : String → List String)
    (resolveFn : String → String → Option (String × String)) :
    Nat → List String → String → RState → Bool × RState
  | _, [], _, s => (true, s)
  | fuel, d :: ds, dirname, s =>
    match requireF prog resolveFn fuel dirname d s with
    | (some _, s₁) => requireListF prog resolveFn fuel ds dirname s₁
    | (none, s₁) => (false, s₁)
termination_by fuel ds _ _ => (fuel, ds.length + 1)

end

/-- The cache discipline invariant: the evaluator has been invoked at
most once per resolved path, and every invoked path was registered in
the cache (registration precedes invocation and entries are never
removed). -/
def CacheInv (s : RState) : Prop :=
  s.evalLog.Nodup ∧ ∀ p ∈ s.evalLog, (jsGet s.cache p).isSome

/-- A two-module cycle: /a.js requires ./b and /b.js requires ./a. -/
def c1prog : String → List String := fun fn =>
  if fn = "/a.js" then ["./b"] else if fn = "/b.js" then ["./a"] else []

/-- The resolve step of the cycle run: ./a and ./b resolve from any
directory to /a.js and /b.js, cwd /. -/
def c1res : String → String → Option (String × String) := fun _ id =>
  if id = "./a" then some ("/a.js", "/")
  else if id = "./b" then some ("/b.js", "/")
  else none

/-! ### Concrete inputs of the resolver claims -/

/-- The parse function of the override scenario: the manifest declares a
browser map binding ./native.js to the disable sentinel. -/
def c4parse : String → Option Pkg := fun s =>
  if s = "PKG" then some ⟨none, some (.obj [("./native.js", .disable)]), []⟩
  else none

def c4Root : List (String × VNode) :=
  [("package.json", makeFile "PKG"), ("native.js", makeFile "REAL")]

def c4RootAbsent : List (String × VNode) := [("package.json", makeFile "PKG")]

/-- The parse function of the candidate-order scenario: an empty manifest. -/
def c7parse : String → Option Pkg := fun s =>
  if s = "P7" then some ⟨none, none, []⟩ else none

def c7Root : List (String × VNode) :=
  [("package.json", makeFile "P7"),
   ("foo", VNode.dir [("index.js", makeFile "FI")]),
   ("foo.js", makeFile "FJ")]

def c7FooIndexPath : VPath :=
  .child (VNode.file 2 "FI") "index.js"
    (.child (VNode.dir [("index.js", VNode.file 2 "FI")]) "foo" (.root c7Root))

def c7FooJsPath : VPath := .child (VNode.file 2 "FJ") "foo.js" (.root c7Root)

/-- A parse function and a fetch stub for the missing-manifest scenario. -/
def c3parse : String → Option Pkg := fun _ => none

def c3fetch : String → String → List (String × VNode) := fun _ _ => []

def c3tree : List (String × VNode) := [("x", makeFile "y")]

/-- The reuse scenario: a dependency a at constraint 1 already installed. -/
def c8parse : String → Option Pkg := fun s =>
  if s = "P8" then some ⟨none, none, [("a", "1")]⟩
  else if s = "PD" then some ⟨none, none, []⟩ else none

def c8depC : List (String × VNode) :=
  [("package.json", makeFile "PD"), ("node_modules", .dir [])]

def c8nmC : List (String × VNode) :=
  [("a@1", .dir c8depC), ("a", makeLink "a@1")]

def c8tree : List (String × VNode) :=
  [("package.json", makeFile "P8"), ("node_modules", .dir c8nmC)]

/-- The scoped-dependency fetch scenario. -/
def c5parse : String → Option Pkg := fun s =>
  if s = "P5" then some ⟨none, none, [("@s/a", "1")]⟩
  else if s = "PD" then some ⟨none, none, []⟩ else none

def c5tree : List (String × VNode) := [("package.json", makeFile "P5")]

def c5F : List (String × VNode) :=
  [("package.json", makeFile "PD"), ("node_modules", .dir [])]

def c5fetchW : String → String → List (String × VNode) := fun _ _ => c5F

def c5fetchPlain : String → String → List (String × VNode) := fun _ _ =>
  [("package.json", makeFile "PD")]

theorem rawParts_noslash_append (xs : List Char) (h : '/' ∉ xs) :
    ∀ acc rest, rawParts (xs ++ rest) acc = rawParts rest (xs.reverse ++ acc) := by
  induction xs with
  | nil => intro acc rest; simp
  | cons x xs ih =>
    intro acc rest
    have hx : ¬ (x = '/') := fun hc => h (hc ▸ List.mem_cons_self x xs)
    have hxs : '/' ∉ xs := fun hc => h (List.mem_cons_of_mem x hc)
    rw [List.cons_append, rawParts, if_neg hx, ih hxs]
    simp

theorem rawParts_slash (rest : List Char) (acc : List Char)
    (h : acc.head? ≠ some '\\') :
    rawParts ('/' :: rest) acc = acc.reverse :: rawParts rest [] := by
  rw [rawParts]
  simp [h]

theorem pathStr_data_head (p : VPath) :
    ∃ rest, p.pathStr.data = '/' :: rest := by
  induction p with
  | root _ => exact ⟨[], rfl⟩
  | child n name parent ih =>
    obtain ⟨rest, hrest⟩ := ih
    refine ⟨rest ++ (name ++ if n.isDir then "/" else "").data, ?_⟩
    simp only [VPath.pathStr, String.data_append, hrest]
    simp [String.data_append]

theorem reverse_head_ne (name : String) (h : '\\' ∉ name.data) :
    (name.data.reverse).head? ≠ some '\\' := by
  intro hcontra
  rcases hn : name.data.reverse with _ | ⟨a, t⟩
  · rw [hn] at hcontra; simp at hcontra
  · rw [hn] at hcontra
    simp only [List.head?_cons, Option.some.injEq] at hcontra
    apply h
    rw [← List.mem_reverse, hn, ← hcontra]
    exact List.mem_cons_self a t

theorem rawParts_pathStr (root : List (String × VNode)) {p : VPath}
    (hp : Reach root p) :
    ∀ c, p.node = .dir c →
      ∀ B, rawParts (p.pathStr.data ++ B) [] = partsPre p ++ rawParts B [] := by
  induction hp with
  | root =>
    intro c _ B
    have hd : ("/" : String).data = ['/'] := rfl
    simp only [VPath.pathStr, hd, List.cons_append, List.nil_append]
    rw [rawParts_slash _ _ (by simp)]
    rfl
  | @step q qc name node hq hqdir hget hgood ih =>
    intro c hc B
    have hdirnode : node.isDir = true := by
      have : (VPath.child node name q).node = .dir c := hc
      simp only [VPath.node] at this
      rw [this, VNode.isDir]
    have hsplit : (VPath.child node name q).pathStr.data ++ B
        = q.pathStr.data ++ (name.data ++ '/' :: B) := by
      simp only [VPath.pathStr, hdirnode, if_true]
      simp [String.data_append]
    rw [hsplit, ih qc hqdir (name.data ++ '/' :: B),
      rawParts_noslash_append name.data hgood.2.2.2.1 [] ('/' :: B),
      rawParts_slash _ _ (by rw [List.append_nil]; exact reverse_head_ne name hgood.2.2.2.2)]
    simp [partsPre]

theorem partsPre_filter (root : List (String × VNode)) {p : VPath}
    (hp : Reach root p) :
    ((partsPre p).map fun part => String.mk part).filter
      (fun part => part != "" && part != ".") = pathNames p := by
  induction hp with
  | root => rfl
  | @step q qc name node hq hqdir hget hgood ih =>
    have hname : (name != "" && name != ".") = true := by
      simp only [bne_iff_ne, ne_eq, Bool.and_eq_true, decide_eq_true_eq]
      exact ⟨hgood.1, hgood.2.1⟩
    have hmk : String.mk name.data = name := rfl
    simp only [partsPre, pathNames, List.map_append, List.filter_append, ih,
      List.map_cons, List.map_nil, List.filter_cons, hmk, hname, List.filter_nil]
    simp

theorem decode_pathStr_dir (root : List (String × VNode)) {p : VPath}
    {c : List (String × VNode)} (hp : Reach root p) (hdir : p.node = .dir c) :
    decode p.pathStr = pathNames p := by
  unfold decode
  have hraw := rawParts_pathStr root hp c hdir []
  rw [List.append_nil] at hraw
  rw [hraw]
  have hnil : rawParts ([] : List Char) [] = [[]] := rfl
  rw [hnil, List.map_append, List.filter_append, partsPre_filter root hp]
  have hempty : List.filter (fun part => part != "" && part != ".")
      (List.map (fun part => String.mk part) [[]]) = [] := rfl
  rw [hempty, List.append_nil]

theorem decode_pathStr (root : List (String × VNode)) {p : VPath}
    (hp : Reach root p) : decode p.pathStr = pathNames p := by
  cases hp with
  | root => rfl
  | @step q qc name node hq hqdir hget hgood =>
    by_cases hd : node.isDir = true
    · rcases node with d | ⟨sz, ct⟩ | tg
      · exact decode_pathStr_dir root (Reach.step hq hqdir hget hgood)
          (c := d) rfl
      · simp [VNode.isDir] at hd
      · simp [VNode.isDir] at hd
    · unfold decode
      have hdata : (VPath.child node name q).pathStr.data
          = q.pathStr.data ++ name.data := by
        simp only [VPath.pathStr, hd, if_false]
        simp [String.data_append]
      have hr : rawParts name.data [] = [name.data] := by
        conv_lhs => rw [← List.append_nil name.data]
        rw [rawParts_noslash_append name.data hgood.2.2.2.1 [] []]
        simp [rawParts]
      have hname : (name != "" && name != ".") = true := by
        simp only [bne_iff_ne, ne_eq, Bool.and_eq_true, decide_eq_true_eq]
        exact ⟨hgood.1, hgood.2.1⟩
      rw [hdata, rawParts_pathStr root hq qc hqdir name.data, hr,
        List.map_append, List.filter_append, partsPre_filter root hq]
      simp [pathNames, List.filter, hname, show String.mk name.data = name from rfl]

theorem lfindLoop_pathNames (root : List (String × VNode)) {p : VPath}
    (hp : Reach root p) (fuel depth : Nat) :
    ∀ ys, lfindLoop fuel root depth (pathNames p ++ ys) (.root root)
      = lfindLoop fuel root depth ys p := by
  induction hp with
  | root => intro ys; rfl
  | @step q qc name node hq hqdir hget hgood ih =>
    intro ys
    rw [pathNames, List.append_assoc, List.singleton_append, ih (name :: ys)]
    rw [lfindLoop, hqdir]
    show lfindStep fuel root depth name ys q
      = lfindLoop fuel root depth ys (VPath.child node name q)
    rw [lfindStep, hqdir]
    show (if name = ".." then lfindLoop fuel root depth ys q.parentOrSelf
      else match jsGet qc name with
        | none => Except.ok none
        | some next => lfindLoop fuel root depth ys (VPath.child next name q))
      = lfindLoop fuel root depth ys (VPath.child node name q)
    rw [if_neg hgood.2.2.1, hget]

/-- C6: for every Path reachable from the root by descending through
directory entries only (plain names: nonempty, not a dot component, free
of separator and escape characters), walking the decoded component
sequence of the Path's full path string (which is absolute, so the walk
starts at the root whatever the current directory) returns the very same
Path, hence a Path referencing the same node; no symlink resolution
occurs, so the result holds for every fuel and symlink depth. -/
theorem walk_decode_roundTrip (root : List (String × VNode)) (cwd : VPath)
    {p : VPath} (hp : Reach root p) (fuel depth : Nat) :
    lfind fuel root cwd p.pathStr depth = .ok (some p) := by
  rw [lfind]
  obtain ⟨rest, hrest⟩ := pathStr_data_head p
  rw [hrest, List.head?_cons, if_pos rfl, decode_pathStr root hp]
  have hloop := lfindLoop_pathNames root hp fuel depth []
  rw [List.append_nil] at hloop
  rw [hloop, lfindLoop]

theorem walk_decode_roundTrip_witness :
    lfind 3 c6Root (.root c6Root) c6P.pathStr 20 = .ok (some c6P) := by
  have h1 : Reach c6Root
      (.child (VNode.dir [("b", VNode.file 1 "x")]) "a" (.root c6Root)) :=
    Reach.step Reach.root rfl rfl (by decide)
  have h2 : Reach c6Root c6P := Reach.step h1 rfl rfl (by decide)
  exact walk_decode_roundTrip c6Root (.root c6Root) h2 3 20

theorem lfindLoop_replicate_dotdot (fuel depth : Nat)
    (root : List (String × VNode)) :
    ∀ n, lfindLoop fuel root depth (List.replicate n "..") (.root root)
      = .ok (some (.root root)) := by
  intro n
  induction n with
  | zero => rw [List.replicate_zero, lfindLoop]
  | succ n ih =>
    rw [List.replicate_succ, lfindLoop]
    show lfindStep fuel root depth ".." (List.replicate n "..") (.root root)
      = .ok (some (.root root))
    rw [lfindStep]
    show (if (".." : String) = ".."
        then lfindLoop fuel root depth (List.replicate n "..") (VPath.root root).parentOrSelf
        else match jsGet root ".." with
          | none => Except.ok none
          | some next => lfindLoop fuel root depth (List.replicate n "..")
              (.child next ".." (.root root)))
      = .ok (some (.root root))
    rw [if_pos rfl]
    exact ih

/-- C9: walking parent components at the root is a no-op: any specifier
that decodes to a sequence of parent components only (for any count,
hence idempotently) resolves from the root to the root Path, and is not
an error. -/
theorem dotdot_at_root_noop (root : List (String × VNode)) (spec : String)
    (n fuel depth : Nat) (h : decode spec = List.replicate n "..") :
    lfind fuel root (.root root) spec depth = .ok (some (.root root)) := by
  rw [lfind, h, ite_self]
  exact lfindLoop_replicate_dotdot fuel depth root n

theorem dotdot_at_root_noop_witness :
    decode "../../.." = List.replicate 3 ".." ∧
    lfind 2 [("a", VNode.dir [])] (.root [("a", VNode.dir [])]) "../../.." 20
      = .ok (some (.root [("a", VNode.dir [])])) :=
  ⟨by decide, dotdot_at_root_noop _ _ 3 2 20 (by decide)⟩

/-! ### Symlink chains and the depth bound -/

theorem decode_single (name : String) (h1 : '/' ∉ name.data) (h2 : name ≠ "")
    (h3 : name ≠ ".") : decode name = [name] := by
  unfold decode
  have hr : rawParts name.data [] = [name.data] := by
    conv_lhs => rw [← List.append_nil name.data]
    rw [rawParts_noslash_append name.data h1 [] []]
    simp [rawParts]
  have hname : (name != "" && name != ".") = true := by
    simp only [bne_iff_ne, ne_eq, Bool.and_eq_true, decide_eq_true_eq]
    exact ⟨h2, h3⟩
  rw [hr]
  simp [List.filter, hname, show String.mk name.data = name from rfl]

/-- Looking up a single plain name from a directory path touches no
symlink machinery, so the result is fuel-independent. -/
theorem lfind_plain_name (fuel depth : Nat) (root C : List (String × VNode))
    (cwd : VPath) (hc : cwd.node = .dir C) (name : String) (node : VNode)
    (hget : jsGet C name = some node) (hgood : GoodName name) :
    lfind fuel root cwd name depth = .ok (some (.child node name cwd)) := by
  rw [lfind]
  have hhead : ¬ (name.data.head? = some '/') := by
    intro hcon
    apply hgood.2.2.2.1
    cases hnd : name.data with
    | nil => rw [hnd] at hcon; simp at hcon
    | cons a t =>
      rw [hnd] at hcon
      simp only [List.head?_cons, Option.some.injEq] at hcon
      rw [hcon]
      exact List.mem_cons_self '/' t
  rw [if_neg hhead,
    decode_single name hgood.2.2.2.1 hgood.1 hgood.2.1]
  rw [lfindLoop, hc]
  show lfindStep fuel root depth name [] cwd = .ok (some (.child node name cwd))
  rw [lfindStep, hc]
  show (if name = ".." then lfindLoop fuel root depth [] cwd.parentOrSelf
      else match jsGet C name with
        | none => Except.ok none
        | some next => lfindLoop fuel root depth [] (.child next name cwd))
    = .ok (some (.child node name cwd))
  rw [if_neg hgood.2.2.1, hget]
  show lfindLoop fuel root depth [] (.child node name cwd)
    = .ok (some (.child node name cwd))
  rw [lfindLoop]

theorem chain_realnodeGo_ok (root C : List (String × VNode)) (cwd : VPath)
    (f : Nat → String) (tgt : VNode) (N : Nat)
    (hcwd : cwd.node = .dir C)
    (hgood : ∀ i, i ≤ N → GoodName (f i))
    (hlink : ∀ i, i < N → jsGet C (f i) = some (makeLink (f (i + 1))))
    (htgt : jsGet C (f N) = some tgt)
    (hnl : tgt.isLink = false) :
    ∀ k j fuel rem, j + k = N → k ≤ rem → k < fuel →
      realnodeGo fuel root (some (chainPath cwd f tgt N j)) rem
        = .ok (some (chainPath cwd f tgt N N)) := by
  intro k
  induction k with
  | zero =>
    intro j fuel rem hj _ _
    have hjN : j = N := by omega
    subst hjN
    rw [chainPath, chainNode, if_neg (lt_irrefl j)]
    cases tgt with
    | link t => simp [VNode.isLink] at hnl
    | dir d =>
      rw [realnodeGo]
      intro t n pr h
      simp at h
    | file sz ct =>
      rw [realnodeGo]
      intro t n pr h
      simp at h
  | succ k ih =>
    intro j fuel rem hj hrem hfuel
    have hjN : j < N := by omega
    obtain ⟨r, hr⟩ : ∃ r, rem = r + 1 := ⟨rem - 1, by omega⟩
    obtain ⟨fl, hfl⟩ : ∃ fl, fuel = fl + 1 := ⟨fuel - 1, by omega⟩
    subst hr hfl
    have hstep : jsGet C (f (j + 1)) = some (chainNode f tgt N (j + 1)) := by
      by_cases hlt : j + 1 < N
      · rw [chainNode, if_pos hlt]; exact hlink (j + 1) hlt
      · have : j + 1 = N := by omega
        subst this
        rw [chainNode, if_neg (lt_irrefl (j + 1))]; exact htgt
    rw [chainPath, chainNode, if_pos hjN, makeLink, realnodeGo]
    show (match lfind fl root cwd (f (j + 1)) MAX_SYMLINK_DEPTH with
        | .error e => Except.error e
        | .ok next => realnodeGo fl root next r)
      = .ok (some (chainPath cwd f tgt N N))
    rw [lfind_plain_name fl MAX_SYMLINK_DEPTH root C cwd hcwd (f (j + 1)) _
      hstep (hgood (j + 1) (by omega))]
    show realnodeGo fl root (some (chainPath cwd f tgt N (j + 1))) r
      = .ok (some (chainPath cwd f tgt N N))
    exact ih (j + 1) fl r (by omega) (by omega) (by omega)

theorem chain_realnodeGo_cyclic (root C : List (String × VNode)) (cwd : VPath)
    (f : Nat → String) (tgt : VNode) (N : Nat)
    (hcwd : cwd.node = .dir C)
    (hgood : ∀ i, i ≤ N → GoodName (f i))
    (hlink : ∀ i, i < N → jsGet C (f i) = some (makeLink (f (i + 1))))
    (htgt : jsGet C (f N) = some tgt) :
    ∀ rem j fuel, j + rem < N → rem < fuel →
      realnodeGo fuel root (some (chainPath cwd f tgt N j)) rem
        = .error .ecyclic := by
  intro rem
  induction rem with
  | zero =>
    intro j fuel hj _
    rw [chainPath, chainNode, if_pos (by omega : j < N), makeLink, realnodeGo]
  | succ r ih =>
    intro j fuel hj hfuel
    obtain ⟨fl, hfl⟩ : ∃ fl, fuel = fl + 1 := ⟨fuel - 1, by omega⟩
    subst hfl
    have hjN : j < N := by omega
    have hstep : jsGet C (f (j + 1)) = some (chainNode f tgt N (j + 1)) := by
      by_cases hlt : j + 1 < N
      · rw [chainNode, if_pos hlt]; exact hlink (j + 1) hlt
      · have : j + 1 = N := by omega
        subst this
        rw [chainNode, if_neg (lt_irrefl (j + 1))]; exact htgt
    rw [chainPath, chainNode, if_pos hjN, makeLink, realnodeGo]
    show (match lfind fl root cwd (f (j + 1)) MAX_SYMLINK_DEPTH with
        | .error e => Except.error e
        | .ok next => realnodeGo fl root next r)
      = .error .ecyclic
    rw [lfind_plain_name fl MAX_SYMLINK_DEPTH root C cwd hcwd (f (j + 1)) _
      hstep (hgood (j + 1) (by omega))]
    show realnodeGo fl root (some (chainPath cwd f tgt N (j + 1))) r
      = .error .ecyclic
    exact ih (j + 1) fl (by omega) (by omega)

/-- C2: for a chain of sibling symlink entries in one directory, each
link's stored specifier being the plain name of the next entry and the
final entry a non-link target, realnode at the default depth resolves the
head of a chain of exactly 20 links to the target, while a chain of 21
links fails with the cyclic error; traversal never diverges (the result
is reached with any sufficient fuel). -/
theorem symlink_chain_depth_bound (root C : List (String × VNode))
    (cwd : VPath) (f : Nat → String) (tgt : VNode) (N fuel : Nat)
    (hcwd : cwd.node = .dir C)
    (hgood : ∀ i, i ≤ N → GoodName (f i))
    (hlink : ∀ i, i < N → jsGet C (f i) = some (makeLink (f (i + 1))))
    (htgt : jsGet C (f N) = some tgt)
    (hnl : tgt.isLink = false)
    (hfuel : MAX_SYMLINK_DEPTH < fuel) :
    (N = 20 →
      realnode fuel root (some (chainPath cwd f tgt N 0)) MAX_SYMLINK_DEPTH
        = .ok (some (chainPath cwd f tgt N N))) ∧
    (N = 21 →
      realnode fuel root (some (chainPath cwd f tgt N 0)) MAX_SYMLINK_DEPTH
        = .error .ecyclic) := by
  constructor
  · intro h20
    exact chain_realnodeGo_ok root C cwd f tgt N hcwd hgood hlink htgt hnl
      N 0 fuel MAX_SYMLINK_DEPTH (by omega)
      (by rw [MAX_SYMLINK_DEPTH]; omega) (by rw [MAX_SYMLINK_DEPTH] at hfuel; omega)
  · intro h21
    exact chain_realnodeGo_cyclic root C cwd f tgt N hcwd hgood hlink htgt
      MAX_SYMLINK_DEPTH 0 fuel (by rw [MAX_SYMLINK_DEPTH]; omega)
      (by rw [MAX_SYMLINK_DEPTH] at hfuel ⊢; omega)

theorem symlink_chain_depth_bound_witness :
    (realnode 25 (chainC 20) (some (chainPath (.root (chainC 20)) aname
        (VNode.file 1 "t") 20 0)) MAX_SYMLINK_DEPTH
      = .ok (some (chainPath (.root (chainC 20)) aname (VNode.file 1 "t") 20 20))) ∧
    (realnode 25 (chainC 21) (some (chainPath (.root (chainC 21)) aname
        (VNode.file 1 "t") 21 0)) MAX_SYMLINK_DEPTH
      = .error .ecyclic) := by
  constructor
  · exact (symlink_chain_depth_bound (chainC 20) (chainC 20) (.root (chainC 20))
      aname (VNode.file 1 "t") 20 25 rfl
      (by intro i hi; interval_cases i <;> decide)
      (by intro i hi; interval_cases i <;> rfl)
      rfl rfl (by decide)).1 rfl
  · exact (symlink_chain_depth_bound (chainC 21) (chainC 21) (.root (chainC 21))
      aname (VNode.file 1 "t") 21 25 rfl
      (by intro i hi; interval_cases i <;> decide)
      (by intro i hi; interval_cases i <;> rfl)
      rfl rfl (by decide)).2 rfl

/-! ### Basic object and traversal lemmas for the installer proofs -/

theorem jsGet_jsSet_self {α : Type} (l : List (String × α)) (k : String) (v : α) :
    jsGet (jsSet l k v) k = some v := by
  induction l with
  | nil => simp [jsSet, jsGet]
  | cons kv rest ih =>
    by_cases h : kv.1 = k
    · simp [jsSet, jsGet, h]
    · simp only [jsSet, jsGet, if_neg h]
      exact ih

theorem jsSet_of_get_eq {α : Type} (l : List (String × α)) (k : String) (v : α)
    (h : jsGet l k = some v) : jsSet l k v = l := by
  induction l with
  | nil => simp [jsGet] at h
  | cons kv rest ih =>
    by_cases hk : kv.1 = k
    · rw [jsGet] at h
      rw [if_pos hk] at h
      rw [jsSet, if_pos hk]
      cases kv with
      | mk k1 v1 =>
        simp only at hk
        simp only [Option.some.injEq] at h
        rw [hk, h]
    · rw [jsGet, if_neg hk] at h
      rw [jsSet, if_neg hk, ih h]

theorem jsGet_map_update_id (l : List (String × VNode)) (k : String)
    (g : VNode → VNode) (h : jsGet l k = none) :
    (l.map fun kv => if kv.1 = k then (kv.1, g kv.2) else kv) = l := by
  induction l with
  | nil => rfl
  | cons kv rest ih =>
    rw [jsGet] at h
    by_cases hk : kv.1 = k
    · rw [if_pos hk] at h; exact absurd h (by simp)
    · rw [if_neg hk] at h
      simp only [List.map_cons, if_neg hk, ih h]

theorem jsGet_none_of_not_mem {α : Type} (l : List (String × α)) (k : String)
    (h : k ∉ l.map Prod.fst) : jsGet l k = none := by
  induction l with
  | nil => rfl
  | cons kv rest ih =>
    simp only [List.map_cons, List.mem_cons, not_or] at h
    rw [jsGet, if_neg (fun hc => h.1 hc.symm)]
    exact ih h.2

theorem jsGet_map_updateAt_id (l : List (String × VNode)) (k : String)
    (rest : List String) (f : List (String × VNode) → List (String × VNode))
    (h : jsGet l k = none) :
    (l.map fun kv => if kv.1 = k then (kv.1, updateAt kv.2 rest f) else kv) = l := by
  induction l with
  | nil => rfl
  | cons kv tail ih =>
    rw [jsGet] at h
    by_cases hk : kv.1 = k
    · rw [if_pos hk] at h; exact absurd h (by simp)
    · rw [if_neg hk] at h
      simp only [List.map_cons, if_neg hk, ih h]

theorem updateAt_map_fixed (l : List (String × VNode)) (k : String)
    (rest : List String) (f : List (String × VNode) → List (String × VNode))
    (hnodup : (l.map Prod.fst).Nodup) (v : VNode) (hget : jsGet l k = some v)
    (hfix : updateAt v rest f = v) :
    (l.map fun kv => if kv.1 = k then (kv.1, updateAt kv.2 rest f) else kv) = l := by
  induction l with
  | nil => rfl
  | cons kv tail ih =>
    obtain ⟨k1, v1⟩ := kv
    simp only [List.map_cons, List.nodup_cons] at hnodup
    by_cases hk : k1 = k
    · subst hk
      rw [jsGet, if_pos rfl] at hget
      simp only [Option.some.injEq] at hget
      subst hget
      have htail : jsGet tail k1 = none :=
        jsGet_none_of_not_mem tail k1 hnodup.1
      simp [hfix, jsGet_map_updateAt_id tail k1 rest f htail]
    · rw [jsGet, if_neg hk] at hget
      simp [hk, ih hnodup.2 hget]

theorem updateAt_root_entry_fixed (tree : List (String × VNode)) (k : String)
    (f : List (String × VNode) → List (String × VNode))
    (hnodup : (tree.map Prod.fst).Nodup) (nmC : List (String × VNode))
    (hget : jsGet tree k = some (.dir nmC)) (hfi : f nmC = nmC) :
    updateAt (.dir tree) [k] f = .dir tree := by
  rw [updateAt]
  have hfix : updateAt (.dir nmC) [] f = .dir nmC := by rw [updateAt, hfi]
  rw [updateAt_map_fixed tree k [] f hnodup (.dir nmC) hget hfix]

theorem replaceFirstSlashAux_noslash_append (xs : List Char)
    (h : '/' ∉ xs) (ys : List Char) :
    replaceFirstSlashAux (xs ++ '/' :: ys) = xs ++ '+' :: ys := by
  induction xs with
  | nil => simp [replaceFirstSlashAux]
  | cons x rest ih =>
    have hx : ¬ (x = '/') := fun hc => h (hc ▸ List.mem_cons_self x rest)
    have hrest : '/' ∉ rest := fun hc => h (List.mem_cons_of_mem x hc)
    simp only [List.cons_append, replaceFirstSlashAux, if_neg hx]
    rw [List.append_eq, ih hrest]

theorem replaceFirstSlash_scoped (scope base : String) (h : '/' ∉ scope.data) :
    replaceFirstSlash ("@" ++ scope ++ "/" ++ base) = "@" ++ scope ++ "+" ++ base := by
  apply String.ext
  show replaceFirstSlashAux ("@" ++ scope ++ "/" ++ base).data
    = ("@" ++ scope ++ "+" ++ base).data
  have hdl : ("@" ++ scope ++ "/" ++ base).data
      = '@' :: (scope.data ++ '/' :: base.data) := by
    simp [String.data_append]
  have hdr : ("@" ++ scope ++ "+" ++ base).data
      = '@' :: (scope.data ++ '+' :: base.data) := by
    simp [String.data_append]
  rw [hdl, hdr, replaceFirstSlashAux, if_neg (by decide : ¬ ('@' = '/')),
    replaceFirstSlashAux_noslash_append scope.data h base.data]

theorem string_append_at_ne (s v : String) : s ++ "@" ++ v ≠ s := by
  intro h
  have hd := congrArg String.data h
  have hsplit : (s ++ "@" ++ v).data = s.data ++ '@' :: v.data := by
    simp [String.data_append]
  rw [hsplit] at hd
  have hlen := congrArg List.length hd
  simp at hlen

theorem updateAt_jsSet_absent (l : List (String × VNode)) (k : String)
    (d : List (String × VNode))
    (f : List (String × VNode) → List (String × VNode))
    (h : jsGet l k = none) :
    updateAt (.dir (jsSet l k (.dir d))) [k] f
      = .dir (jsSet l k (.dir (f d))) := by
  rw [updateAt]
  induction l with
  | nil => simp [jsSet, updateAt]
  | cons kv rest ih =>
    obtain ⟨k1, v1⟩ := kv
    rw [jsGet] at h
    by_cases hk : k1 = k
    · rw [if_pos hk] at h; exact absurd h (by simp)
    · rw [if_neg hk] at h
      simp only [jsSet, if_neg hk, List.map_cons] at ih ⊢
      have := ih h
      simp only [VNode.dir.injEq] at this
      rw [this]

theorem takeWhile_append_stop {α : Type} (p : α → Bool) (xs : List α)
    (h : ∀ x ∈ xs, p x = true) (y : α) (ys : List α) (hy : p y = false) :
    ((xs ++ y :: ys).takeWhile p) = xs := by
  induction xs with
  | nil => simp [List.takeWhile, hy]
  | cons x rest ih =>
    have hx : p x = true := h x (List.mem_cons_self x rest)
    have hrest : ∀ x ∈ rest, p x = true := fun a ha =>
      h a (List.mem_cons_of_mem x ha)
    simp [List.takeWhile, hx, ih hrest]

theorem dropWhile_append_stop {α : Type} (p : α → Bool) (xs : List α)
    (h : ∀ x ∈ xs, p x = true) (y : α) (ys : List α) (hy : p y = false) :
    ((xs ++ y :: ys).dropWhile p) = y :: ys := by
  induction xs with
  | nil => simp [List.dropWhile, hy]
  | cons x rest ih =>
    have hx : p x = true := h x (List.mem_cons_self x rest)
    have hrest : ∀ x ∈ rest, p x = true := fun a ha =>
      h a (List.mem_cons_of_mem x ha)
    simp [List.dropWhile, hx, ih hrest]

theorem takeWhile_all {α : Type} (p : α → Bool) (xs : List α)
    (h : ∀ x ∈ xs, p x = true) : xs.takeWhile p = xs := by
  induction xs with
  | nil => rfl
  | cons x rest ih =>
    have hx : p x = true := h x (List.mem_cons_self x rest)
    have hrest : ∀ x ∈ rest, p x = true := fun a ha =>
      h a (List.mem_cons_of_mem x ha)
    simp [List.takeWhile, hx, ih hrest]

theorem dropWhile_all {α : Type} (p : α → Bool) (xs : List α)
    (h : ∀ x ∈ xs, p x = true) : xs.dropWhile p = [] := by
  induction xs with
  | nil => rfl
  | cons x rest ih =>
    have hx : p x = true := h x (List.mem_cons_self x rest)
    have hrest : ∀ x ∈ rest, p x = true := fun a ha =>
      h a (List.mem_cons_of_mem x ha)
    simp [List.dropWhile, hx, ih hrest]

theorem realnodeGo_none (fuel rem : Nat) (root : List (String × VNode)) :
    realnodeGo fuel root none rem = .ok none := by
  rw [realnodeGo.eq_def]

theorem realnodeGo_nonlink (fuel rem : Nat) (root : List (String × VNode))
    (node : VNode) (name : String) (par : VPath) (h : node.isLink = false) :
    realnodeGo fuel root (some (.child node name par)) rem
      = .ok (some (.child node name par)) := by
  cases node with
  | link t => simp [VNode.isLink] at h
  | dir d =>
    rw [realnodeGo]
    intro t n pr hcontra
    simp at hcontra
  | file sz ct =>
    rw [realnodeGo]
    intro t n pr hcontra
    simp at hcontra

theorem lfind_plain_name_absent (fuel depth : Nat)
    (root C : List (String × VNode)) (cwd : VPath) (hc : cwd.node = .dir C)
    (name : String) (habs : jsGet C name = none) (hgood : GoodName name) :
    lfind fuel root cwd name depth = .ok none := by
  rw [lfind]
  have hhead : ¬ (name.data.head? = some '/') := by
    intro hcon
    apply hgood.2.2.2.1
    cases hnd : name.data with
    | nil => rw [hnd] at hcon; simp at hcon
    | cons a t =>
      rw [hnd] at hcon
      simp only [List.head?_cons, Option.some.injEq] at hcon
      rw [hcon]
      exact List.mem_cons_self '/' t
  rw [if_neg hhead, decode_single name hgood.2.2.2.1 hgood.1 hgood.2.1]
  rw [lfindLoop, hc]
  show lfindStep fuel root depth name [] cwd = .ok none
  rw [lfindStep, hc]
  show (if name = ".." then lfindLoop fuel root depth [] cwd.parentOrSelf
      else match jsGet C name with
        | none => Except.ok none
        | some next => lfindLoop fuel root depth [] (.child next name cwd))
    = .ok none
  rw [if_neg hgood.2.2.1, habs]

theorem find_plain_absent (fuel : Nat) (root C : List (String × VNode))
    (cwd : VPath) (hc : cwd.node = .dir C) (name : String)
    (habs : jsGet C name = none) (hgood : GoodName name) :
    find fuel root cwd name = .ok none := by
  rw [find, lfind_plain_name_absent fuel MAX_SYMLINK_DEPTH root C cwd hc name
    habs hgood]
  exact realnodeGo_none fuel MAX_SYMLINK_DEPTH root

theorem find_plain_present (fuel : Nat) (root C : List (String × VNode))
    (cwd : VPath) (hc : cwd.node = .dir C) (name : String) (node : VNode)
    (hget : jsGet C name = some node) (hgood : GoodName name)
    (hnl : node.isLink = false) :
    find fuel root cwd name = .ok (some (.child node name cwd)) := by
  rw [find, lfind_plain_name fuel MAX_SYMLINK_DEPTH root C cwd hc name node
    hget hgood]
  exact realnodeGo_nonlink fuel MAX_SYMLINK_DEPTH root node name cwd hnl

/-! ### Resolver claim theorems -/

theorem relResolve_eq_specAmended (fuel : Nat) (root : List (String × VNode))
    (cwd : VPath) (browser : List (String × Option VPath))
    (parse : String → Option Pkg) (id : String) :
    relResolve fuel root cwd browser parse id
      = specAmendedRelResolve fuel root cwd browser parse id := by
  unfold relResolve specAmendedRelResolve loadAsFile
  cases h1 : createReader fuel root cwd browser id with
  | error e => rfl
  | ok v1 =>
    cases v1 with
    | some p1 => cases hf1 : p1.node.isFile <;> simp [isFileOrNotFound, hf1]
    | none =>
      cases h2 : createReader fuel root cwd browser (id ++ ".js") with
      | error e => rfl
      | ok v2 =>
        cases v2 with
        | some p2 => cases hf2 : p2.node.isFile <;> simp [isFileOrNotFound, hf2]
        | none =>
          cases h3 : createReader fuel root cwd browser (id ++ ".json") with
          | error e => rfl
          | ok v3 =>
            cases v3 with
            | some p3 =>
              cases hf3 : p3.node.isFile <;> simp [isFileOrNotFound, hf3]
            | none => rfl

/-- C7 (amended): for a relative or absolute specifier, resolution equals
the amended fixed-order strategy: the exact path is read first, and a
read yielding a non-file skips the remaining suffix candidates and
proceeds directly with the directory strategy (index.js, index.json,
then the directory's own manifest entry by the same file-then-index
strategy); otherwise the .js then .json suffixes are tried the same way;
exhausting all candidates is the NOTFOUND failure naming the original
specifier. -/
theorem resolve_relative_candidate_order (fuel : Nat)
    (root : List (String × VNode)) (cwd : VPath) (parse : String → Option Pkg)
    (id : String) (h : isRelSpec id = true) :
    resolve fuel root cwd parse id = specAmendedResolve fuel root cwd parse id := by
  unfold resolve specAmendedResolve
  simp only [h, if_true, relResolve_eq_specAmended]

theorem resolve_relative_candidate_order_witness :
    isRelSpec "./foo" = true ∧
    resolve 20 c7Root (.root c7Root) c7parse "./foo"
      = specAmendedResolve 20 c7Root (.root c7Root) c7parse "./foo" :=
  ⟨rfl, resolve_relative_candidate_order 20 c7Root (.root c7Root) c7parse
    "./foo" rfl⟩

/-- C7 (counterexample): with a directory foo containing index.js next to
a file foo.js, the claimed fixed candidate order picks foo.js (the .js
suffix of the exact path), but resolve returns foo/index.js: when the
exact path reads as a directory, the suffix candidates are skipped. -/
theorem resolve_fixed_order_counterexample :
    specFixedOrderRel 20 c7Root (.root c7Root) [] c7parse "./foo"
      = .ok (some c7FooJsPath) ∧
    resolve 20 c7Root (.root c7Root) c7parse "./foo" = .ok c7FooIndexPath ∧
    c7FooJsPath.pathStr = "/foo.js" ∧
    c7FooIndexPath.pathStr = "/foo/index.js" := by
  refine ⟨?_, ?_, by decide, by decide⟩
  · simp +decide [specFixedOrderRel, specFirstFile, createReader, find, lfind,
      lfindLoop, lfindStep, realnodeGo, decode, rawParts, jsGet, c7Root, c7parse,
      makeFile, isFileOrNotFound, VPath.node, VNode.isFile, VNode.isDir,
      VPath.pathStr, MAX_SYMLINK_DEPTH, loadAsDirectoryPackage, get, lget,
      realnode, c7FooJsPath, VPath.parentOrSelf]
  · simp +decide [resolve, findClosest, jsGet, get, realnodeGo, lget, c7Root,
      c7parse, makeFile, mapBrowser, mapBrowserFold, mapBrowserEntry, realnode,
      bvalNode, isFileOrNotFound, VPath.node, VNode.isFile, VPath.pathStr,
      VNode.isDir, isRelSpec, relResolve, loadAsFile, createReader, find, lfind,
      lfindLoop, lfindStep, decode, rawParts, MAX_SYMLINK_DEPTH, loadAsDirectory,
      loadAsIndex, loadAsDirectoryPackage, jsSet, VPath.parentOrSelf, makeLink,
      startsWithDotSlash, c7FooIndexPath]

/-- C4 (code bug evidence): with the manifest browser map binding
./native.js to the disable sentinel, resolving ./native.js from the
package directory returns the real file native.js when it exists, and
fails with ENOENT when it does not; the stubbed empty module is never
produced, because the browser key is stored as the package path joined
with the literal dot-slash name, which the lookup of a resolved
(decoded) path never matches. -/
theorem browser_disable_relative_code_bug :
    resolve 20 c4Root (.root c4Root) c4parse "./native.js"
      = .ok (.child (VNode.file 4 "REAL") "native.js" (.root c4Root)) ∧
    resolve 20 c4RootAbsent (.root c4RootAbsent) c4parse "./native.js"
      = .error (.enoent "./native.js") := by
  constructor <;>
    simp +decide [resolve, findClosest, jsGet, get, realnodeGo, lget, c4Root,
      c4RootAbsent, c4parse, makeFile, mapBrowser, mapBrowserFold,
      mapBrowserEntry, realnode, bvalNode, isFileOrNotFound, VPath.node,
      VNode.isFile, VPath.pathStr, VNode.isDir, isRelSpec, relResolve,
      loadAsFile, createReader, find, lfind, lfindLoop, lfindStep, decode,
      rawParts, MAX_SYMLINK_DEPTH, loadAsDirectory, loadAsIndex,
      loadAsDirectoryPackage, jsSet, VPath.parentOrSelf, makeLink,
      startsWithDotSlash]

/-! ### Installer claim theorems -/

/-- C3 (amended): when the directory at the install path has no entry
named package.json (and the dependency-directory lookup itself does not
throw), install does not succeed trivially: it fails with the ENOENT
error naming the expected manifest path, and fetchRemote is never
invoked; the empty dependency directory is still created first when
absent. -/
theorem install_missing_manifest (fuel : Nat) (parse : String → Option Pkg)
    (fetch : String → String → List (String × VNode))
    (tree : List (String × VNode)) (log : List (String × String))
    (acc : List String) (cwdPath : VPath) (c : List (String × VNode))
    (hcwd : mkVPath tree acc = some cwdPath)
    (hdir : cwdPath.node = .dir c)
    (hpkg : jsGet c "package.json" = none)
    (r : Option VPath)
    (hnm : find (fuel + 1) tree cwdPath "node_modules" = .ok r) :
    (installF (fuel + 1) parse fetch ⟨tree, log⟩ acc).2
        = .error (.enoent (cwdPath.pathStr ++ "package.json")) ∧
    (installF (fuel + 1) parse fetch ⟨tree, log⟩ acc).1.fetchLog = log := by
  have hpkgfind : find (fuel + 1) tree cwdPath "package.json" = .ok none :=
    find_plain_absent (fuel + 1) tree c cwdPath hdir "package.json" hpkg
      (by decide)
  cases r with
  | none => refine ⟨?_, ?_⟩ <;> (rw [installF]; simp [hcwd, hpkgfind, hnm])
  | some nmPath =>
    refine ⟨?_, ?_⟩ <;> (rw [installF]; simp [hcwd, hpkgfind, hnm])

theorem install_missing_manifest_witness :
    (installF 5 c3parse c3fetch ⟨c3tree, []⟩ []).2
        = .error (.enoent ((VPath.root c3tree).pathStr ++ "package.json")) ∧
    (installF 5 c3parse c3fetch ⟨c3tree, []⟩ []).1.fetchLog = [] :=
  install_missing_manifest 4 c3parse c3fetch c3tree [] [] (.root c3tree)
    c3tree rfl rfl rfl none
    (find_plain_absent 5 c3tree c3tree (.root c3tree) rfl "node_modules" rfl
      (by decide))

/-- C3 (counterexample): install at a directory without package.json does
not return without error: on a concrete filesystem it yields the ENOENT
failure (the claim asserts trivial success). -/
theorem install_missing_manifest_counterexample :
    (installF 5 c3parse c3fetch ⟨c3tree, []⟩ []).2 = .error (.enoent "/package.json") := by
  simp +decide [installF, mkVPath, mkVPathGo, find, lfind, lfindLoop, lfindStep,
    realnodeGo, decode, rawParts, jsGet, jsSet, updateAt, VNode.dir!, VPath.node,
    VPath.pathStr, VPath.access, VNode.isDir, MAX_SYMLINK_DEPTH, makeFile, c3tree]

/-- C8: when the qualified identifier of the (single) declared dependency
already names a directory entry of the dependency directory, install
reuses it: fetchRemote is never invoked, and the whole state, the entry
under the qualified identifier included, is unchanged (the reassignments
of the entry and of the alias symlink write back the values already
present).  The hypotheses pin the reused entry to a well-formed installed
package (own manifest without dependencies and an existing dependency
directory), so the recursive pass mutates nothing. -/
theorem install_reuses_existing_entry (fuel : Nat) (parse : String → Option Pkg)
    (fetch : String → String → List (String × VNode))
    (tree nmC depC dnm : List (String × VNode)) (log : List (String × String))
    (name version ct ctd : String) (sz szd : Nat) (pkg pkgd : Pkg)
    (hnodup : (tree.map Prod.fst).Nodup)
    (hroot_pkg : jsGet tree "package.json" = some (VNode.file sz ct))
    (hroot_nm : jsGet tree "node_modules" = some (.dir nmC))
    (hparse : parse ct = some pkg)
    (hdeps : pkg.dependencies = [(name, version)])
    (hbrowser : pkg.browser = none)
    (hgood : GoodName (replaceFirstSlash name ++ "@" ++ version))
    (hdep : jsGet nmC (replaceFirstSlash name ++ "@" ++ version)
      = some (.dir depC))
    (halias : jsGet nmC (replaceFirstSlash name)
      = some (.link (replaceFirstSlash name ++ "@" ++ version)))
    (hdep_pkg : jsGet depC "package.json" = some (VNode.file szd ctd))
    (hdep_nm : jsGet depC "node_modules" = some (.dir dnm))
    (hdparse : parse ctd = some pkgd)
    (hdd : pkgd.dependencies = []) :
    installF (fuel + 2) parse fetch ⟨tree, log⟩ [] = (⟨tree, log⟩, .ok ()) := by
  have hfp : find (fuel + 2) tree (.root tree) "package.json"
      = .ok (some (.child (VNode.file sz ct) "package.json" (.root tree))) :=
    find_plain_present (fuel + 2) tree tree (.root tree) rfl "package.json"
      _ hroot_pkg (by decide) rfl
  have hfn : find (fuel + 2) tree (.root tree) "node_modules"
      = .ok (some (.child (.dir nmC) "node_modules" (.root tree))) :=
    find_plain_present (fuel + 2) tree tree (.root tree) rfl "node_modules"
      _ hroot_nm (by decide) rfl
  have hmk2 : mkVPath tree ["node_modules"]
      = some (.child (.dir nmC) "node_modules" (.root tree)) := by
    simp [mkVPath, mkVPathGo, VPath.node, hroot_nm]
  have hfind_dep : find (fuel + 2) tree
      (.child (.dir nmC) "node_modules" (.root tree))
      (replaceFirstSlash name ++ "@" ++ version)
      = .ok (some (.child (.dir depC)
          (replaceFirstSlash name ++ "@" ++ version)
          (.child (.dir nmC) "node_modules" (.root tree)))) :=
    find_plain_present (fuel + 2) tree nmC
      (.child (.dir nmC) "node_modules" (.root tree)) rfl _ _ hdep hgood rfl
  have hupd : updateAt (.dir tree) ["node_modules"]
      (fun c => jsSet (jsSet c (replaceFirstSlash name ++ "@" ++ version)
          (.dir depC)) (replaceFirstSlash name)
          (makeLink (replaceFirstSlash name ++ "@" ++ version)))
      = .dir tree := by
    refine updateAt_root_entry_fixed tree "node_modules" _ hnodup nmC hroot_nm ?_
    rw [jsSet_of_get_eq _ _ _ hdep, makeLink, jsSet_of_get_eq _ _ _ halias]
  have hdep1 : installDepOne (fuel + 2) fetch [] ["node_modules"] name version
      ⟨tree, log⟩ = (⟨tree, log⟩, .ok (some ["node_modules",
        replaceFirstSlash name ++ "@" ++ version])) := by
    rw [installDepOne]
    simp only [jsGet, hmk2, hfind_dep]
    simp only [VPath.node, VNode.isDir]
    simp +decide [VNode.dir!, hupd]
  have hmk3 : mkVPath tree
      ["node_modules", replaceFirstSlash name ++ "@" ++ version]
      = some (.child (.dir depC) (replaceFirstSlash name ++ "@" ++ version)
          (.child (.dir nmC) "node_modules" (.root tree))) := by
    simp [mkVPath, mkVPathGo, VPath.node, hroot_nm, hdep]
  have hfp2 : find (fuel + 1) tree
      (.child (.dir depC) (replaceFirstSlash name ++ "@" ++ version)
        (.child (.dir nmC) "node_modules" (.root tree))) "package.json"
      = .ok (some (.child (VNode.file szd ctd) "package.json"
          (.child (.dir depC) (replaceFirstSlash name ++ "@" ++ version)
            (.child (.dir nmC) "node_modules" (.root tree))))) :=
    find_plain_present (fuel + 1) tree depC
      (.child (.dir depC) (replaceFirstSlash name ++ "@" ++ version)
        (.child (.dir nmC) "node_modules" (.root tree))) rfl "package.json"
      _ hdep_pkg (by decide) rfl
  have hfn2 : find (fuel + 1) tree
      (.child (.dir depC) (replaceFirstSlash name ++ "@" ++ version)
        (.child (.dir nmC) "node_modules" (.root tree))) "node_modules"
      = .ok (some (.child (.dir dnm) "node_modules"
          (.child (.dir depC) (replaceFirstSlash name ++ "@" ++ version)
            (.child (.dir nmC) "node_modules" (.root tree))))) :=
    find_plain_present (fuel + 1) tree depC
      (.child (.dir depC) (replaceFirstSlash name ++ "@" ++ version)
        (.child (.dir nmC) "node_modules" (.root tree))) rfl "node_modules"
      _ hdep_nm (by decide) rfl
  have hrec : installF (fuel + 1) parse fetch ⟨tree, log⟩
      ["node_modules", replaceFirstSlash name ++ "@" ++ version]
      = (⟨tree, log⟩, .ok ()) := by
    rw [installF]
    simp +decide [hmk3, hfp2, hfn2, installBody, installDepsLoop, installRecLoop,
      hdparse, hdd, VPath.node, VNode.isDir, VPath.access]
  show installF ((fuel + 1) + 1) parse fetch ⟨tree, log⟩ [] = (⟨tree, log⟩, .ok ())
  rw [installF]
  simp +decide [mkVPath, mkVPathGo, hfp, hfn, installBody, hparse, hdeps,
    hbrowser, installDepsLoop, hdep1, installRecLoop, hrec, VPath.node,
    VNode.isDir, VPath.access]

theorem goodName_scoped_id (scope base version : String)
    (hsc : '/' ∉ scope.data) (hsb : '/' ∉ base.data) (hsv : '/' ∉ version.data)
    (hbs1 : '\\' ∉ scope.data) (hbs2 : '\\' ∉ base.data)
    (hbs3 : '\\' ∉ version.data) :
    GoodName ("@" ++ scope ++ "+" ++ base ++ "@" ++ version) := by
  have hdata : ("@" ++ scope ++ "+" ++ base ++ "@" ++ version).data
      = '@' :: (scope.data ++ '+' :: (base.data ++ '@' :: version.data)) := by
    simp [String.data_append]
  refine ⟨?_, ?_, ?_, ?_, ?_⟩
  · intro h
    have := congrArg String.data h
    rw [hdata] at this
    simp at this
  · intro h
    have := congrArg String.data h
    rw [hdata] at this
    simp at this
  · intro h
    have := congrArg String.data h
    rw [hdata] at this
    simp at this
  · rw [hdata]
    simp only [List.mem_cons, List.mem_append]
    push_neg
    exact ⟨by decide, fun h => hsc h, by decide, fun h => hsb h, by decide,
      fun h => hsv h⟩
  · rw [hdata]
    simp only [List.mem_cons, List.mem_append]
    push_neg
    exact ⟨by decide, fun h => hbs1 h, by decide, fun h => hbs2 h, by decide,
      fun h => hbs3 h⟩

/-- C5 (amended): installing a manifest that declares the single scoped
dependency at-scope slash base with constraint version, not yet
installed, invokes fetchRemote once for it, grafts the fetched root into
the dependency directory under the qualified identifier obtained by
replacing the first separator of the name by a plus sign with the
leading at sign retained (at-scope plus base, at sign, constraint), and
stores the alias symlink under the normalized name with the qualified
identifier as its stored specifier. -/
theorem install_scoped_dependency_key (fuel : Nat) (parse : String → Option Pkg)
    (fetch : String → String → List (String × VNode))
    (tree F dnm : List (String × VNode)) (log : List (String × String))
    (scope base version ct ctd : String) (sz szd : Nat) (pkg pkgd : Pkg)
    (hsc : '/' ∉ scope.data) (hsb : '/' ∉ base.data) (hsv : '/' ∉ version.data)
    (hbs1 : '\\' ∉ scope.data) (hbs2 : '\\' ∉ base.data)
    (hbs3 : '\\' ∉ version.data)
    (hroot_pkg : jsGet tree "package.json" = some (VNode.file sz ct))
    (hroot_nm : jsGet tree "node_modules" = none)
    (hparse : parse ct = some pkg)
    (hdeps : pkg.dependencies = [("@" ++ scope ++ "/" ++ base, version)])
    (hbrowser : pkg.browser = none)
    (hfetch : fetch ("@" ++ scope ++ "/" ++ base) version = F)
    (hF_pkg : jsGet F "package.json" = some (VNode.file szd ctd))
    (hF_nm : jsGet F "node_modules" = some (.dir dnm))
    (hdparse : parse ctd = some pkgd)
    (hdd : pkgd.dependencies = []) :
    installF (fuel + 2) parse fetch ⟨tree, log⟩ []
      = (⟨jsSet tree "node_modules"
            (.dir [("@" ++ scope ++ "+" ++ base ++ "@" ++ version, .dir F),
              ("@" ++ scope ++ "+" ++ base,
               .link ("@" ++ scope ++ "+" ++ base ++ "@" ++ version))]),
          log ++ [("@" ++ scope ++ "/" ++ base, version)]⟩, .ok ()) := by
  have hrepl := replaceFirstSlash_scoped scope base hsc
  have hgood : GoodName (("@" ++ scope ++ "+" ++ base) ++ "@" ++ version) :=
    goodName_scoped_id scope base version hsc hsb hsv hbs1 hbs2 hbs3
  have hfp : find (fuel + 2) tree (.root tree) "package.json"
      = .ok (some (.child (VNode.file sz ct) "package.json" (.root tree))) :=
    find_plain_present (fuel + 2) tree tree (.root tree) rfl "package.json"
      _ hroot_pkg (by decide) rfl
  have hfn : find (fuel + 2) tree (.root tree) "node_modules" = .ok none :=
    find_plain_absent (fuel + 2) tree tree (.root tree) rfl "node_modules"
      hroot_nm (by decide)
  have hmk2 : mkVPath (jsSet tree "node_modules" (VNode.dir [])) ["node_modules"]
      = some (.child (.dir []) "node_modules"
          (.root (jsSet tree "node_modules" (VNode.dir [])))) := by
    simp [mkVPath, mkVPathGo, VPath.node, jsGet_jsSet_self]
  have hfind_dep : find (fuel + 2) (jsSet tree "node_modules" (VNode.dir []))
      (.child (.dir []) "node_modules"
        (.root (jsSet tree "node_modules" (VNode.dir []))))
      (("@" ++ scope ++ "+" ++ base) ++ "@" ++ version) = .ok none :=
    find_plain_absent (fuel + 2) (jsSet tree "node_modules" (VNode.dir []))
      [] (.child (.dir []) "node_modules"
        (.root (jsSet tree "node_modules" (VNode.dir [])))) rfl _ rfl hgood
  have happ : (jsSet (jsSet ([] : List (String × VNode))
        (("@" ++ scope ++ "+" ++ base) ++ "@" ++ version) (.dir F))
        ("@" ++ scope ++ "+" ++ base)
        (makeLink (("@" ++ scope ++ "+" ++ base) ++ "@" ++ version)))
      = [((("@" ++ scope ++ "+" ++ base) ++ "@" ++ version), .dir F),
         (("@" ++ scope ++ "+" ++ base),
          .link (("@" ++ scope ++ "+" ++ base) ++ "@" ++ version))] := by
    simp [jsSet, if_neg (string_append_at_ne ("@" ++ scope ++ "+" ++ base) version),
      makeLink]
  have hupd : updateAt (.dir (jsSet tree "node_modules" (VNode.dir [])))
      ["node_modules"]
      (fun c => jsSet (jsSet c (("@" ++ scope ++ "+" ++ base) ++ "@" ++ version)
          (.dir F)) ("@" ++ scope ++ "+" ++ base)
          (makeLink (("@" ++ scope ++ "+" ++ base) ++ "@" ++ version)))
      = .dir (jsSet tree "node_modules"
          (.dir [((("@" ++ scope ++ "+" ++ base) ++ "@" ++ version), .dir F),
            (("@" ++ scope ++ "+" ++ base),
             .link (("@" ++ scope ++ "+" ++ base) ++ "@" ++ version))])) := by
    rw [updateAt_jsSet_absent tree "node_modules" [] _ hroot_nm, happ]
  have hdep1 : installDepOne (fuel + 2) fetch [] ["node_modules"]
      ("@" ++ scope ++ "/" ++ base) version
      ⟨jsSet tree "node_modules" (VNode.dir []), log⟩
      = (⟨jsSet tree "node_modules"
            (.dir [((("@" ++ scope ++ "+" ++ base) ++ "@" ++ version), .dir F),
              (("@" ++ scope ++ "+" ++ base),
               .link (("@" ++ scope ++ "+" ++ base) ++ "@" ++ version))]),
          log ++ [("@" ++ scope ++ "/" ++ base, version)]⟩,
         .ok (some ["node_modules",
           ("@" ++ scope ++ "+" ++ base) ++ "@" ++ version])) := by
    rw [installDepOne]
    simp only [jsGet, hrepl, hmk2, hfind_dep, hfetch]
    simp +decide [VNode.dir!, hupd]
  have hnm2get : jsGet (jsSet tree "node_modules"
      (.dir [((("@" ++ scope ++ "+" ++ base) ++ "@" ++ version), .dir F),
        (("@" ++ scope ++ "+" ++ base),
         .link (("@" ++ scope ++ "+" ++ base) ++ "@" ++ version))]))
      "node_modules"
      = some (.dir [((("@" ++ scope ++ "+" ++ base) ++ "@" ++ version), .dir F),
          (("@" ++ scope ++ "+" ++ base),
           .link (("@" ++ scope ++ "+" ++ base) ++ "@" ++ version))]) :=
    jsGet_jsSet_self tree "node_modules" _
  have hmk3 : mkVPath (jsSet tree "node_modules"
      (.dir [((("@" ++ scope ++ "+" ++ base) ++ "@" ++ version), .dir F),
        (("@" ++ scope ++ "+" ++ base),
         .link (("@" ++ scope ++ "+" ++ base) ++ "@" ++ version))]))
      ["node_modules", ("@" ++ scope ++ "+" ++ base) ++ "@" ++ version]
      = some (.child (.dir F) (("@" ++ scope ++ "+" ++ base) ++ "@" ++ version)
          (.child (.dir [((("@" ++ scope ++ "+" ++ base) ++ "@" ++ version), .dir F),
              (("@" ++ scope ++ "+" ++ base),
               .link (("@" ++ scope ++ "+" ++ base) ++ "@" ++ version))])
            "node_modules"
            (.root (jsSet tree "node_modules"
              (.dir [((("@" ++ scope ++ "+" ++ base) ++ "@" ++ version), .dir F),
                (("@" ++ scope ++ "+" ++ base),
                 .link (("@" ++ scope ++ "+" ++ base) ++ "@" ++ version))]))))) := by
    simp [mkVPath, mkVPathGo, VPath.node, hnm2get, jsGet]
  have hrec : installF (fuel + 1) parse fetch
      ⟨jsSet tree "node_modules"
          (.dir [((("@" ++ scope ++ "+" ++ base) ++ "@" ++ version), .dir F),
            (("@" ++ scope ++ "+" ++ base),
             .link (("@" ++ scope ++ "+" ++ base) ++ "@" ++ version))]),
        log ++ [("@" ++ scope ++ "/" ++ base, version)]⟩
      ["node_modules", ("@" ++ scope ++ "+" ++ base) ++ "@" ++ version]
      = (⟨jsSet tree "node_modules"
            (.dir [((("@" ++ scope ++ "+" ++ base) ++ "@" ++ version), .dir F),
              (("@" ++ scope ++ "+" ++ base),
               .link (("@" ++ scope ++ "+" ++ base) ++ "@" ++ version))]),
          log ++ [("@" ++ scope ++ "/" ++ base, version)]⟩, .ok ()) := by
    have hfp2 := find_plain_present (fuel + 1)
      (jsSet tree "node_modules"
        (.dir [((("@" ++ scope ++ "+" ++ base) ++ "@" ++ version), .dir F),
          (("@" ++ scope ++ "+" ++ base),
           .link (("@" ++ scope ++ "+" ++ base) ++ "@" ++ version))]))
      F (.child (.dir F) (("@" ++ scope ++ "+" ++ base) ++ "@" ++ version)
          (.child (.dir [((("@" ++ scope ++ "+" ++ base) ++ "@" ++ version), .dir F),
              (("@" ++ scope ++ "+" ++ base),
               .link (("@" ++ scope ++ "+" ++ base) ++ "@" ++ version))])
            "node_modules"
            (.root (jsSet tree "node_modules"
              (.dir [((("@" ++ scope ++ "+" ++ base) ++ "@" ++ version), .dir F),
                (("@" ++ scope ++ "+" ++ base),
                 .link (("@" ++ scope ++ "+" ++ base) ++ "@" ++ version))])))))
      rfl "package.json" _ hF_pkg (by decide) rfl
    have hfn2 := find_plain_present (fuel + 1)
      (jsSet tree "node_modules"
        (.dir [((("@" ++ scope ++ "+" ++ base) ++ "@" ++ version), .dir F),
          (("@" ++ scope ++ "+" ++ base),
           .link (("@" ++ scope ++ "+" ++ base) ++ "@" ++ version))]))
      F (.child (.dir F) (("@" ++ scope ++ "+" ++ base) ++ "@" ++ version)
          (.child (.dir [((("@" ++ scope ++ "+" ++ base) ++ "@" ++ version), .dir F),
              (("@" ++ scope ++ "+" ++ base),
               .link (("@" ++ scope ++ "+" ++ base) ++ "@" ++ version))])
            "node_modules"
            (.root (jsSet tree "node_modules"
              (.dir [((("@" ++ scope ++ "+" ++ base) ++ "@" ++ version), .dir F),
                (("@" ++ scope ++ "+" ++ base),
                 .link (("@" ++ scope ++ "+" ++ base) ++ "@" ++ version))])))))
      rfl "node_modules" _ hF_nm (by decide) rfl
    rw [installF]
    simp +decide [hmk3, hfp2, hfn2, installBody, installDepsLoop, installRecLoop,
      hdparse, hdd, VPath.node, VNode.isDir, VPath.access]
  show installF ((fuel + 1) + 1) parse fetch ⟨tree, log⟩ [] = _
  rw [installF]
  simp +decide [mkVPath, mkVPathGo, hfp, hfn, installBody, hparse, hdeps,
    hbrowser, installDepsLoop, hdep1, installRecLoop, hrec, VPath.node,
    VNode.isDir, VPath.access, VNode.dir!, updateAt]

theorem install_scoped_dependency_key_witness :
    installF 5 c5parse c5fetchW ⟨c5tree, []⟩ []
      = (⟨jsSet c5tree "node_modules"
            (.dir [("@s+a@1", .dir c5F), ("@s+a", .link "@s+a@1")]),
          [("@s/a", "1")]⟩, .ok ()) := by
  have h := install_scoped_dependency_key 3 c5parse c5fetchW c5tree c5F [] []
    "s" "a" "1" "P5" "PD" 2 2 ⟨none, none, [("@s/a", "1")]⟩ ⟨none, none, []⟩
    (by decide) (by decide) (by decide) (by decide) (by decide) (by decide)
    rfl rfl rfl rfl rfl rfl rfl rfl rfl rfl
  exact h

/-- C5 (counterexample): with the scoped dependency at-s slash a at
constraint 1, the dependency directory after install has no entry under
the claimed key s+a@1 (the at sign dropped); the entry is under the key
at-s+a@1 (the at sign retained). -/
theorem install_scoped_key_counterexample :
    getAt (.dir (installF 5 c5parse c5fetchW ⟨c5tree, []⟩ []).1.tree)
        ["node_modules", "s+a@1"] = none ∧
    getAt (.dir (installF 5 c5parse c5fetchW ⟨c5tree, []⟩ []).1.tree)
        ["node_modules", "@s+a@1"] = some (.dir c5F) := by
  constructor <;>
    simp +decide [installF, installBody, installDepsLoop, installRecLoop,
      installDepOne, mkVPath, mkVPathGo, find, lfind, lfindLoop, lfindStep,
      realnodeGo, decode, rawParts, jsGet, jsSet, updateAt, VNode.dir!,
      VPath.node, VPath.pathStr, VPath.access, VNode.isDir, VNode.isLink,
      MAX_SYMLINK_DEPTH, makeFile, makeLink, c5parse, c5fetchW, c5tree, c5F,
      getAt, replaceFirstSlash, replaceFirstSlashAux]

theorem install_reuses_existing_entry_witness :
    installF 5 c8parse c3fetch ⟨c8tree, []⟩ [] = (⟨c8tree, []⟩, .ok ()) :=
  install_reuses_existing_entry 3 c8parse c3fetch c8tree c8nmC c8depC [] []
    "a" "1" "P8" "PD" 2 2 ⟨none, none, [("a", "1")]⟩ ⟨none, none, []⟩
    (by decide) rfl rfl rfl rfl rfl (by decide) rfl rfl rfl rfl rfl rfl

theorem replaceFirstSlashAux_id (l : List Char) (h : '/' ∉ l) :
    replaceFirstSlashAux l = l := by
  induction l with
  | nil => rfl
  | cons x xs ih =>
    have hx : ¬ (x = '/') := fun hc => h (hc ▸ List.mem_cons_self x xs)
    have hxs : '/' ∉ xs := fun hc => h (List.mem_cons_of_mem x hc)
    rw [replaceFirstSlashAux, if_neg hx, ih hxs]

theorem bareTail_all (l : List Char) (hne : l ≠ [])
    (h1 : '/' ∉ l) (h2 : '@' ∉ l) : bareTail l = some (String.mk l, "") := by
  have hall : ∀ x ∈ l, (!(x = '@' || x = '/')) = true := by
    intro x hx
    simp only [Bool.not_eq_eq_eq_not, Bool.not_true, Bool.or_eq_false_iff,
      decide_eq_false_iff_not]
    exact ⟨fun hc => h2 (hc ▸ hx), fun hc => h1 (hc ▸ hx)⟩
  rw [bareTail]
  simp only [takeWhile_all _ l hall, dropWhile_all _ l hall]
  rw [if_neg (by simpa using hne)]

/-- C10: the directory-entry name the installer grafts under (the
dependency name with its first separator replaced by a plus sign) equals
the name the resolver's bare-specifier lookup computes, both for scoped
names (at-scope slash base, with nonempty scope free of separators and
nonempty base free of separators and at signs) and for plain names free
of separators and at signs: an installed dependency is found by the
resolver under the same key. -/
theorem installer_resolver_key_agreement (scope base : String)
    (hs1 : scope ≠ "") (hs2 : '/' ∉ scope.data)
    (hb1 : base ≠ "") (hb2 : '/' ∉ base.data) (hb3 : '@' ∉ base.data) :
    replaceFirstSlash ("@" ++ scope ++ "/" ++ base)
      = resolverPkgKey ("@" ++ scope ++ "/" ++ base) ∧
    ∀ name : String, name ≠ "" → '/' ∉ name.data → '@' ∉ name.data →
      replaceFirstSlash name = resolverPkgKey name := by
  constructor
  · rw [replaceFirstSlash_scoped scope base hs2]
    have hdl : ("@" ++ scope ++ "/" ++ base).data
        = '@' :: (scope.data ++ '/' :: base.data) := by
      simp [String.data_append]
    have hscall : ∀ x ∈ scope.data, (!(x = '/')) = true := by
      intro x hx
      simp only [Bool.not_eq_eq_eq_not, Bool.not_true, decide_eq_false_iff_not]
      exact fun hc => hs2 (hc ▸ hx)
    have hbdata : base.data ≠ [] := by
      intro hc
      exact hb1 (String.ext hc)
    have hscne : ¬ ((scope.data).isEmpty = true) := by
      intro hc
      apply hs1
      apply String.ext
      cases hd2 : scope.data with
      | nil => rfl
      | cons a t => rw [hd2] at hc; simp [List.isEmpty] at hc
    have hparts : bareIdParts ("@" ++ scope ++ "/" ++ base)
        = some (some (String.mk ('@' :: scope.data)), base, "") := by
      simp only [bareIdParts, hdl, if_true]
      rw [takeWhile_append_stop _ scope.data hscall '/' base.data (by decide),
        dropWhile_append_stop _ scope.data hscall '/' base.data (by decide)]
      rw [if_neg hscne]
      show Option.map (fun pkmp =>
          (some (String.mk ('@' :: scope.data)), pkmp.1, pkmp.2))
          (bareTail base.data)
        = some (some (String.mk ('@' :: scope.data)), base, "")
      rw [bareTail_all base.data hbdata hb2 hb3]
      rfl
    have hkey : resolverPkgKey ("@" ++ scope ++ "/" ++ base)
        = String.mk ('@' :: scope.data) ++ "+" ++ base := by
      simp only [resolverPkgKey, hparts, Option.getD_some]
      rw [if_neg (by intro hc; have := congrArg String.data hc; simp at this)]
    rw [hkey]
    apply String.ext
    simp [String.data_append]
  · intro name hne h1 h2
    have hnd : name.data ≠ [] := fun hc => hne (String.ext hc)
    cases hd : name.data with
    | nil => exact absurd hd hnd
    | cons c cs =>
      have hc_at : ¬ (c = '@') := fun hc =>
        h2 (hd ▸ (hc ▸ List.mem_cons_self c cs))
      have hparts : bareIdParts name = some (none, name, "") := by
        simp only [bareIdParts, hd]
        rw [if_neg hc_at, ← hd, bareTail_all name.data hnd h1 h2]
        rfl
      have hfix : replaceFirstSlash name = name :=
        String.ext (replaceFirstSlashAux_id name.data h1)
      rw [hfix]
      simp [resolverPkgKey, hparts]

theorem jsGet_jsSet_other {α : Type} (l : List (String × α)) (k : String)
    (v : α) (k' : String) (h : k' ≠ k) :
    jsGet (jsSet l k v) k' = jsGet l k' := by
  induction l with
  | nil =>
    simp only [jsSet, jsGet]
    rw [if_neg (fun hc => h hc.symm)]
  | cons kv rest ih =>
    by_cases hk : kv.1 = k
    · simp only [jsSet, if_pos hk, jsGet]
      rw [if_neg (by rw [hk]; exact fun hc => h hc.symm),
        if_neg (by rw [hk]; exact fun hc => h hc.symm)]
    · simp only [jsSet, if_neg hk, jsGet]
      by_cases hk2 : kv.1 = k'
      · rw [if_pos hk2, if_pos hk2]
      · rw [if_neg hk2, if_neg hk2, ih]

theorem isSome_jsGet_jsSet {α : Type} (l : List (String × α)) (k : String)
    (v : α) (k' : String) (h : (jsGet l k').isSome = true) :
    (jsGet (jsSet l k v) k').isSome = true := by
  by_cases hk : k' = k
  · subst hk; rw [jsGet_jsSet_self]; rfl
  · rw [jsGet_jsSet_other l k v k' hk]; exact h

theorem requireF_inv_mono (prog : String → List String)
    (resolveFn : String → String → Option (String × String)) : ∀ fuel : Nat,
    (∀ cwd id s, CacheInv s →
      CacheInv (requireF prog resolveFn fuel cwd id s).2 ∧
      ∀ k tok, jsGet s.cache k = some tok →
        jsGet (requireF prog resolveFn fuel cwd id s).2.cache k = some tok) ∧
    (∀ ds dn s, CacheInv s →
      CacheInv (requireListF prog resolveFn fuel ds dn s).2 ∧
      ∀ k tok, jsGet s.cache k = some tok →
        jsGet (requireListF prog resolveFn fuel ds dn s).2.cache k = some tok) := by
  intro fuel
  induction fuel with
  | zero =>
    constructor
    · intro cwd id s hs
      rw [requireF]
      exact ⟨hs, fun k tok h => h⟩
    · intro ds dn s hs
      cases ds with
      | nil => rw [requireListF]; exact ⟨hs, fun k tok h => h⟩
      | cons d ds =>
        rw [requireListF, requireF]
        exact ⟨hs, fun k tok h => h⟩
  | succ fuel ih =>
    have hreq : ∀ cwd id s, CacheInv s →
        CacheInv (requireF prog resolveFn (fuel + 1) cwd id s).2 ∧
        ∀ k tok, jsGet s.cache k = some tok →
          jsGet (requireF prog resolveFn (fuel + 1) cwd id s).2.cache k = some tok := by
      intro cwd id s hs
      rw [requireF]
      by_cases hbare : (!id.data.contains '/' && (jsGet s.cache id).isSome) = true
      · rw [if_pos hbare]
        cases halias : jsGet s.cache id with
        | some tok => exact ⟨hs, fun k t h => h⟩
        | none => exact ⟨hs, fun k t h => h⟩
      · rw [if_neg hbare]
        cases hres : resolveFn cwd id with
        | none => exact ⟨hs, fun k t h => h⟩
        | some fd =>
          obtain ⟨fn, dn⟩ := fd
          simp only
          cases hhit : jsGet s.cache fn with
          | some tok => simp only [hhit]; exact ⟨hs, fun k t h => h⟩
          | none =>
            simp only [hhit]
            have hfn_notin : fn ∉ s.evalLog := by
              intro hmem
              have := hs.2 fn hmem
              rw [hhit] at this
              simp at this
            have hcache₂ : ∀ k tok, jsGet s.cache k = some tok →
                jsGet (if id.data.contains '/'
                  then jsSet s.cache fn s.nextTok
                  else jsSet (jsSet s.cache fn s.nextTok) id s.nextTok) k
                  = some tok := by
              intro k tok hk
              have hkfn : k ≠ fn := by
                intro hc; rw [hc, hhit] at hk; exact Option.noConfusion hk
              by_cases hid : id.data.contains '/'
              · rw [if_pos hid, jsGet_jsSet_other _ _ _ _ hkfn]; exact hk
              · rw [if_neg hid]
                have hidnone : jsGet s.cache id = none := by
                  cases hq : jsGet s.cache id with
                  | none => rfl
                  | some t =>
                    exfalso
                    apply hbare
                    simp only [Bool.not_eq_true] at hid
                    rw [hid, hq]
                    rfl
                have hkid : k ≠ id := by
                  intro hc; rw [hc, hidnone] at hk; exact Option.noConfusion hk
                rw [jsGet_jsSet_other _ _ _ _ hkid,
                  jsGet_jsSet_other _ _ _ _ hkfn]
                exact hk
            have hInv₁ : CacheInv
                { cache := if id.data.contains '/'
                    then jsSet s.cache fn s.nextTok
                    else jsSet (jsSet s.cache fn s.nextTok) id s.nextTok,
                  mods := tokSet s.mods s.nextTok ⟨s.nextTok, false⟩,
                  evalLog := s.evalLog ++ [fn], nextTok := s.nextTok + 1 } := by
              constructor
              · exact List.Nodup.append hs.1 (List.nodup_singleton fn)
                  (fun a ha hb => by
                    simp only [List.mem_singleton] at hb
                    exact hfn_notin (hb ▸ ha))
              · intro p hp
                simp only [List.mem_append, List.mem_singleton] at hp
                cases hp with
                | inl hp =>
                  have hsome := hs.2 p hp
                  by_cases hid : id.data.contains '/'
                  · rw [if_pos hid]
                    exact isSome_jsGet_jsSet _ _ _ _ hsome
                  · rw [if_neg hid]
                    exact isSome_jsGet_jsSet _ _ _ _
                      (isSome_jsGet_jsSet _ _ _ _ hsome)
                | inr hp =>
                  subst hp
                  by_cases hid : id.data.contains '/'
                  · rw [if_pos hid, jsGet_jsSet_self]; rfl
                  · rw [if_neg hid]
                    exact isSome_jsGet_jsSet _ _ _ _
                      (by rw [jsGet_jsSet_self]; rfl)
            obtain ⟨hInv₂, hmono₂⟩ := ih.2 (prog fn) dn _ hInv₁
            cases hrun : requireListF prog resolveFn fuel (prog fn) dn
                { cache := if id.data.contains '/'
                    then jsSet s.cache fn s.nextTok
                    else jsSet (jsSet s.cache fn s.nextTok) id s.nextTok,
                  mods := tokSet s.mods s.nextTok ⟨s.nextTok, false⟩,
                  evalLog := s.evalLog ++ [fn], nextTok := s.nextTok + 1 } with
            | mk b s₂ =>
              rw [hrun] at hInv₂ hmono₂
              cases b with
              | true =>
                refine ⟨⟨hInv₂.1, hInv₂.2⟩, ?_⟩
                intro k tok hk
                exact hmono₂ k tok (hcache₂ k tok hk)
              | false =>
                refine ⟨hInv₂, ?_⟩
                intro k tok hk
                exact hmono₂ k tok (hcache₂ k tok hk)
    refine ⟨hreq, ?_⟩
    intro ds
    induction ds with
    | nil =>
      intro dn s hs
      rw [requireListF]
      exact ⟨hs, fun k tok h => h⟩
    | cons d ds ihd =>
      intro dn s hs
      rw [requireListF]
      obtain ⟨hInv₁, hmono₁⟩ := hreq dn d s hs
      cases hr : requireF prog resolveFn (fuel + 1) dn d s with
      | mk r s₁ =>
        rw [hr] at hInv₁ hmono₁
        cases r with
        | none => exact ⟨hInv₁, hmono₁⟩
        | some e =>
          obtain ⟨hInv₂, hmono₂⟩ := ihd dn s₁ hInv₁
          exact ⟨hInv₂, fun k tok hk => hmono₂ k tok (hmono₁ k tok hk)⟩

theorem requireF_hit (prog : String → List String)
    (resolveFn : String → String → Option (String × String)) (fl : Nat)
    (cwd id fn dn : String) (s : RState) (tok : Nat)
    (hc : id.data.contains '/' = true)
    (hres : resolveFn cwd id = some (fn, dn))
    (hhit : jsGet s.cache fn = some tok) :
    requireF prog resolveFn (fl + 1) cwd id s = (exportsOf s tok, s) := by
  rw [requireF, if_neg (by rw [hc]; exact fun h => Bool.noConfusion h), hres]
  simp only [hhit]

theorem installer_resolver_key_agreement_witness :
    replaceFirstSlash "@s/a" = resolverPkgKey "@s/a" ∧
    replaceFirstSlash "lodash" = resolverPkgKey "lodash" := by
  have h := installer_resolver_key_agreement "s" "a" (by decide) (by decide)
    (by decide) (by decide) (by decide)
  exact ⟨h.1, h.2 "lodash" (by decide) (by decide) (by decide)⟩

/-- C1: one run sharing one require cache invokes the evaluator at most
once per resolved path.  From any state satisfying the cache discipline,
require preserves it: the log of evaluator invocations stays duplicate
free and every invoked path has a cache entry registered no later than
its invocation.  Existing cache bindings survive unchanged, and a
request that resolves to an already cached path returns that entry's
(possibly still partial) exports immediately, with the state — in
particular the invocation log — untouched: the evaluator does not run
again. -/
theorem require_cache_single_evaluation
    (prog : String → List String)
    (resolveFn : String → String → Option (String × String))
    (fuel : Nat) (cwd id : String) (s : RState) (h : CacheInv s) :
    CacheInv (requireF prog resolveFn fuel cwd id s).2 ∧
    (∀ k tok, jsGet s.cache k = some tok →
      jsGet (requireF prog resolveFn fuel cwd id s).2.cache k = some tok) ∧
    (∀ fl fn dn tok, fuel = fl + 1 →
      resolveFn cwd id = some (fn, dn) → id.data.contains '/' = true →
      jsGet s.cache fn = some tok →
      requireF prog resolveFn fuel cwd id s = (exportsOf s tok, s)) := by
  refine ⟨((requireF_inv_mono prog resolveFn fuel).1 cwd id s h).1,
    ((requireF_inv_mono prog resolveFn fuel).1 cwd id s h).2, ?_⟩
  intro fl fn dn tok hf hres hc hhit
  subst hf
  exact requireF_hit prog resolveFn fl cwd id fn dn s tok hc hres hhit

theorem require_cache_single_evaluation_witness :
    CacheInv ⟨[], [], [], 0⟩ ∧
    CacheInv (requireF c1prog c1res 10 "/" "./a" ⟨[], [], [], 0⟩).2 :=
  ⟨⟨List.nodup_nil, fun p hp => absurd hp (List.not_mem_nil p)⟩,
    (require_cache_single_evaluation c1prog c1res 10 "/" "./a" ⟨[], [], [], 0⟩
      ⟨List.nodup_nil, fun p hp => absurd hp (List.not_mem_nil p)⟩).1⟩

end Unpkg
